import Mathlib

/-!
# HomologyGroups: persistent homology of a simplicial filtration

A shallow embedding of `src/main.cpp` (simplex ordering, boundary matrix
construction, column reduction over the two-element field, interval
extraction) together with theorems about it.

Modelling conventions.

* `vector<T>` is `List T`; `vector<vector<int>>` is `List (List Nat)`.  The
  entries of a column are row indices, so they are natural numbers.
* `set<int>` is a strictly ascending list of integers (the iteration order of
  a `std::set`), packaged with the proof that it is strictly ascending.
* `map<K, int>` is a function `K → Option Nat`; `count(k) > 0` is
  `(f k).isSome`, `f[k] = v` is a pointwise update.
* `float` values are only copied and compared by the program, never computed
  with.  They are modelled as rational numbers; `NaN` is outside the model.
  `numeric_limits<float>::max()` is the rational number `FLT_MAX`.
* The `do … while` loop of `reduction` is the only loop whose termination is
  not structural.  It is modelled with a fuel argument and returns `none`
  when the fuel runs out; undefined behaviour (reading the last element of an
  empty vector, writing outside an array, a failed `assert`) is `none` as well.
  The states the loop goes through are also given as a relation, `inner_loop`,
  which `reduce_column` is shown to follow.
-/

namespace HomologyGroups

/-! ## Data model -/

/-- The type `vertices` of the source, `set<int>`: the vertex identifiers in
ascending order without repetition. -/
structure vertices where
  elems : List Int
  asc : elems.Pairwise (· < ·)
deriving DecidableEq

/-- The type `matrix` of the source, `vector<vector<int>>`: a sparse matrix
stored by column, each column a list of row indices. -/
abbrev matrix := List (List Nat)

/-- The value `numeric_limits<float>::max()`, used as the "unbounded" end. -/
def FLT_MAX : ℚ := 340282346638528859811704183484516925440

/-- The struct `interval` of the source. The field `end` is written `end_`. -/
structure interval where
  start : ℚ
  end_ : ℚ
  dim : Int
deriving DecidableEq

/-- The comparison `interval::operator<`. -/
def interval.lt (a rhs : interval) : Bool :=
  if a.start < rhs.start then true
  else if a.start = rhs.start then
    if a.dim < rhs.dim then true
    else if a.dim = rhs.dim then decide (a.end_ < rhs.end_)
    else false
  else false

/-- The struct `simplex` of the source. -/
structure simplex where
  dim : Int
  val : ℚ
  vert : vertices
deriving DecidableEq

/-- The comparison `std::lexicographical_compare`, which is `operator<` of
`set<int>`. -/
def lexicographical_compare : List Int → List Int → Bool
  | _, [] => false
  | [], _ :: _ => true
  | a :: as, b :: bs =>
    if a < b then true
    else if b < a then false
    else lexicographical_compare as bs

/-- The comparison `simplex::operator<`. -/
def simplex.lt (a rhs : simplex) : Bool :=
  if a.val < rhs.val then true
  else if a.val = rhs.val then
    if a.dim < rhs.dim then true
    else if a.dim = rhs.dim then lexicographical_compare a.vert.elems rhs.vert.elems
    else false
  else false

/-- The call `sort(F.begin(), F.end())` of `main`: the simplices in
non-descending order for `simplex::operator<` (`a` may precede `b` when
`b < a` is false). -/
def sort (F : List simplex) : List simplex :=
  F.insertionSort (fun a b => simplex.lt b a = false)

/-- The call `sort(m[col].begin(), m[col].end())` of `make_matrix`. -/
def sort_rows (col : List Nat) : List Nat :=
  col.insertionSort (· ≤ ·)

/-! ## Operations on `set<int>` and `map` -/

/-- Insertion of `v` into an ascending list without repetition. -/
def insertAsc (v : Int) : List Int → List Int
  | [] => [v]
  | x :: xs =>
    if v < x then v :: x :: xs
    else if v = x then x :: xs
    else x :: insertAsc v xs

/-- The call `tmp.erase(tmp.find(v))`. -/
def vertices.erase (s : vertices) (v : Int) : vertices :=
  ⟨s.elems.erase v, s.asc.sublist (List.erase_sublist v s.elems)⟩

/-- The call `tmp.insert(v)`. -/
def vertices.insert (s : vertices) (v : Int) : vertices :=
  ⟨insertAsc v s.elems, by
    have key : ∀ l : List Int, l.Pairwise (· < ·) →
        (insertAsc v l).Pairwise (· < ·) ∧ ∀ y ∈ insertAsc v l, y = v ∨ y ∈ l := by
      intro l
      induction l with
      | nil => intro _; simp [insertAsc]
      | cons x xs ih =>
        intro h
        rw [List.pairwise_cons] at h
        obtain ⟨ih1, ih2⟩ := ih h.2
        unfold insertAsc
        split_ifs with h1 h2
        · refine ⟨?_, ?_⟩
          · refine List.Pairwise.cons ?_ (List.Pairwise.cons h.1 h.2)
            intro y hy
            rcases List.mem_cons.1 hy with rfl | hy
            · exact h1
            · exact lt_trans h1 (h.1 y hy)
          · intro y hy
            rcases List.mem_cons.1 hy with rfl | hy
            · exact Or.inl rfl
            · exact Or.inr hy
        · exact ⟨List.Pairwise.cons h.1 h.2, fun y hy => Or.inr hy⟩
        · refine ⟨List.Pairwise.cons ?_ ih1, ?_⟩
          · intro y hy
            rcases ih2 y hy with rfl | hy
            · omega
            · exact h.1 y hy
          · intro y hy
            rcases List.mem_cons.1 hy with rfl | hy
            · exact Or.inr (List.mem_cons_self _ _)
            · rcases ih2 y hy with rfl | hy
              · exact Or.inl rfl
              · exact Or.inr (List.mem_cons_of_mem _ hy)
    exact (key _ s.asc).1⟩

/-- The assignment `f[k] = v` on a map. -/
def assign {K : Type} [DecidableEq K] (f : K → Option Nat) (k : K) (v : Nat) : K → Option Nat :=
  fun x => if x = k then some v else f x

/-! ## Boundary matrix builder: `make_matrix` -/

/-- The inner loop of `make_matrix` (`for (auto v: s.vert)`): `vs` are the
vertices still to visit, `tmp` the working set and `column` the column
`m[col]` built so far. -/
def face_loop (indices : vertices → Option Nat) : List Int → vertices → List Nat → List Nat
  | [], _, column => column
  | v :: vs, tmp, column =>
    let tmp1 := tmp.erase v
    let column1 :=
      match indices tmp1 with
      | some index => column ++ [index]
      | none => column
    face_loop indices vs (tmp1.insert v) column1

/-- The state of the outer loop of `make_matrix`: the counter `col`, the map
`indices` and the matrix `m`. -/
structure builder where
  col : Nat
  indices : vertices → Option Nat
  m : matrix

/-- One iteration of the outer loop of `make_matrix` (`for (auto s: F)`). -/
def make_matrix_step (st : builder) (s : simplex) : builder :=
  let indices1 := assign st.indices s.vert st.col
  let column := face_loop indices1 s.vert.elems s.vert (st.m.getD st.col [])
  { col := st.col + 1, indices := indices1, m := st.m.set st.col (sort_rows column) }

/-- The function `make_matrix`. -/
def make_matrix (F : List simplex) : matrix :=
  (F.foldl make_matrix_step
    { col := 0, indices := fun _ => none, m := List.replicate F.length [] }).m

/-! ## Column reduction engine: `add` and `reduction` -/

/-- The merge loop of `add` while the iterator `a` of `self` stands on the
value `a`; `rest` is the loop as it continues once `a` has been advanced. -/
def add_step (a : Nat) (rest : List Nat → List Nat) : List Nat → List Nat
  | [] => []
  | b :: bs =>
    if a = b then rest bs
    else if a < b then a :: rest (b :: bs)
    else b :: add_step a rest bs

/-- The function `add`, as the value it leaves in `self`: the merge loop stops
as soon as one of the two sequences is exhausted, and `self` is overwritten by
what was collected so far. -/
def add : List Nat → List Nat → List Nat
  | [] => fun _ => []
  | a :: as => add_step a (add as)

/-- The `do … while` loop of `reduction` for column `i`, with fuel.  The
result is the matrix and the value of `low` on leaving the loop. -/
def reduce_column (inverse_low : Nat → Option Nat) (i : Nat) : Nat → matrix → Option (matrix × Nat)
  | 0, _ => none
  | fuel + 1, m =>
    match (m.getD i []).getLast? with
    | none => none
    | some low =>
      match inverse_low low with
      | none => some (m, low)
      | some p =>
        let m1 := m.set i (add (m.getD i []) (m.getD p []))
        if (m1.getD i []).length > 0 then reduce_column inverse_low i fuel m1
        else some (m1, low)

/-- One iteration of the `for` loop of `reduction`. -/
def reduction_step (fuel : Nat) (st : Option (matrix × (Nat → Option Nat))) (i : Nat) :
    Option (matrix × (Nat → Option Nat)) :=
  match st with
  | none => none
  | some (m, inverse_low) =>
    if (m.getD i []).length = 0 then some (m, inverse_low)
    else
      match reduce_column inverse_low i fuel m with
      | none => none
      | some (m1, low) => some (m1, assign inverse_low low i)

/-- The loop of `reduction` after its first `k` iterations. -/
def reduction_loop (fuel : Nat) (m : matrix) (k : Nat) : Option (matrix × (Nat → Option Nat)) :=
  (List.range k).foldl (reduction_step fuel) (some (m, fun _ => none))

/-- The function `reduction`: the matrix it leaves in `m`, when every run of
the `do … while` loop ends within `fuel` iterations. -/
def reduction (fuel : Nat) (m : matrix) : Option matrix :=
  (reduction_loop fuel m m.length).map Prod.fst

/-! ## Interval extractor: `get_intervals`, and the pipeline of `main` -/

/-- The arrays `start`, `end` and `dim` of `get_intervals`. -/
structure bounds where
  start : List ℚ
  end_ : List ℚ
  dim : List Int

/-- One iteration of the first loop of `get_intervals`.  The column
`reduced_m[c]` is empty exactly when it has no last entry; otherwise `r` is
`*reduced_m[c].rbegin()`.  A write to `end` outside the array is `none`. -/
def get_intervals_step (reduced_m : matrix) (F : List simplex) (st : Option bounds) (c : Nat) :
    Option bounds :=
  match st with
  | none => none
  | some b =>
    match (reduced_m.getD c []).getLast?, F.get? c with
    | _, none => none
    | none, some s =>
      some { b with start := b.start.set c s.val, dim := b.dim.set c s.dim }
    | some r, some s =>
      if r < F.length then some { b with end_ := b.end_.set r s.val } else none

/-- The call `res.insert(i)` on a `multiset<interval>`: the new element goes
after the elements that are not greater than it. -/
def multiset_insert (i : interval) : List interval → List interval
  | [] => [i]
  | y :: ys => if interval.lt i y then i :: y :: ys else y :: multiset_insert i ys

/-- One iteration of the second loop of `get_intervals`. -/
def emit_step (b : bounds) (res : List interval) (c : Nat) : List interval :=
  if 0 ≤ b.dim.getD c (-1) then
    multiset_insert { start := b.start.getD c 0, end_ := b.end_.getD c FLT_MAX, dim := b.dim.getD c (-1) } res
  else res

/-- The function `get_intervals`; the result lists the multiset in its
iteration order.  The arrays are allocated with `F.size()` cells; `start` is
not initialised by the source (its cells are read only after being written)
and starts here with zeros.  A failed `assert` is `none`. -/
def get_intervals (reduced_m : matrix) (F : List simplex) : Option (List interval) :=
  if F.length = reduced_m.length then
    ((List.range F.length).foldl (get_intervals_step reduced_m F)
        (some { start := List.replicate F.length 0,
                end_ := List.replicate F.length FLT_MAX,
                dim := List.replicate F.length (-1) })).map
      (fun b => (List.range F.length).foldl (emit_step b) [])
  else none

/-- The pipeline of `main`: sort, `make_matrix`, `reduction`, `get_intervals`. -/
def compute_intervals (fuel : Nat) (input : List simplex) : Option (List interval) :=
  let F := sort input
  match reduction fuel (make_matrix F) with
  | none => none
  | some m => get_intervals m F

/-! ## Specification vocabulary -/

/-- The "low" of a column: its maximal row index, when the column is not
empty.  In an ascending column this is the last entry, which is what the
source reads with `*(m[i].rbegin())`. -/
def low (column : List Nat) : Option Nat :=
  column.getLast?

/-- Every column of the matrix is a strictly ascending list of row indices. -/
def ascending (m : matrix) : Prop :=
  ∀ column ∈ m, column.Pairwise (· < ·)

/-- The low function restricted to the non-empty columns is injective. -/
def low_injective (m : matrix) : Prop :=
  ∀ i j, i < m.length → j < m.length → i ≠ j →
    m.getD i [] ≠ [] → m.getD j [] ≠ [] → low (m.getD i []) ≠ low (m.getD j [])

/-- Every entry of the matrix lies strictly above the diagonal: an entry `r`
of column `c` has `r < c`. -/
def upper_triangular (m : matrix) : Prop :=
  ∀ c r, r ∈ m.getD c [] → r < c

instance (m : matrix) : Decidable (ascending m) :=
  inferInstanceAs (Decidable (∀ column ∈ m, column.Pairwise (· < ·)))

instance (m : matrix) : Decidable (low_injective m) :=
  decidable_of_iff
    (∀ i ∈ List.range m.length, ∀ j ∈ List.range m.length, i ≠ j →
      m.getD i [] ≠ [] → m.getD j [] ≠ [] → low (m.getD i []) ≠ low (m.getD j []))
    ⟨fun h i j hi hj => h i (List.mem_range.2 hi) j (List.mem_range.2 hj),
      fun h i hi j hj => h i j (List.mem_range.1 hi) (List.mem_range.1 hj)⟩

/-! ## Loop invariants -/

/-- What one run of the `do … while` loop on column `i` establishes, from the
matrix `m` on entry to the matrix `m2` and the value `low` on exit. -/
def column_post (inverse_low : Nat → Option Nat) (i : Nat) (m m2 : matrix) (low : Nat) : Prop :=
  m2.length = m.length ∧ ascending m2 ∧ (∀ j, j ≠ i → m2.getD j [] = m.getD j []) ∧
  ((m2.getD i [] = [] ∧ (inverse_low low).isSome) ∨
    ((m2.getD i []).getLast? = some low ∧ inverse_low low = none)) ∧
  (∀ r ∈ m2.getD i [], r ∈ m.getD i [] ∨ ∃ p, p < i ∧ r ∈ m.getD p [])

/-- The invariant of the `for` loop of `reduction` before iteration `k`: `m`
is the matrix on entry, `m2` the current matrix and `inverse_low` the current
map. -/
def sweep_inv (m : matrix) (k : Nat) (m2 : matrix) (inverse_low : Nat → Option Nat) : Prop :=
  m2.length = m.length ∧ ascending m2 ∧
  (∀ j, k ≤ j → m2.getD j [] = m.getD j []) ∧
  (∀ low p, inverse_low low = some p →
    p < k ∧ (m2.getD p [] = [] ∨ (m2.getD p []).getLast? = some low)) ∧
  (∀ j, j < k → m2.getD j [] ≠ [] →
    ∃ L, (m2.getD j []).getLast? = some L ∧ (inverse_low L).isSome) ∧
  (∀ i j, i < k → j < k → i ≠ j → m2.getD i [] ≠ [] → m2.getD j [] ≠ [] →
    low (m2.getD i []) ≠ low (m2.getD j [])) ∧
  (∀ c r, r ∈ m2.getD c [] → ∃ c', c' ≤ c ∧ r ∈ m.getD c' [])

/-- A fuel that exceeds every entry of the matrix. -/
def enough_fuel (m : matrix) : Nat :=
  (m.flatten).sum + 1

/-- The state of the outer loop of `make_matrix` once the simplices `pre` have
been processed, the matrix having been allocated with `n` columns. -/
def build (n : Nat) (pre : List simplex) : builder :=
  pre.foldl make_matrix_step { col := 0, indices := fun _ => none, m := List.replicate n [] }

/-- The default-constructed simplex of the source, `simplex(): dim(-1), val(0)`. -/
instance : Inhabited simplex :=
  ⟨{ dim := -1, val := 0, vert := ⟨[], List.Pairwise.nil⟩ }⟩

/-- The first loop of `get_intervals` after its first `k` iterations. -/
def first_loop (m : matrix) (F : List simplex) (k : Nat) : Option bounds :=
  (List.range k).foldl (get_intervals_step m F)
    (some { start := List.replicate F.length 0,
            end_ := List.replicate F.length FLT_MAX,
            dim := List.replicate F.length (-1) })

/-- The invariant of the first loop of `get_intervals` before iteration `k`. -/
def first_inv (m : matrix) (F : List simplex) (k : Nat) (b : bounds) : Prop :=
  b.start.length = F.length ∧ b.end_.length = F.length ∧ b.dim.length = F.length ∧
  (∀ c, c < k → m.getD c [] = [] →
    b.start.getD c 0 = (F.getD c default).val ∧ b.dim.getD c (-1) = (F.getD c default).dim) ∧
  (∀ c, (k ≤ c ∨ m.getD c [] ≠ []) → b.dim.getD c (-1) = -1) ∧
  (∀ r, (∀ d, d < k → (m.getD d []).getLast? ≠ some r) → b.end_.getD r FLT_MAX = FLT_MAX) ∧
  (∀ r d, d < k → (m.getD d []).getLast? = some r →
    (∀ d2, d < d2 → d2 < k → (m.getD d2 []).getLast? ≠ some r) →
      b.end_.getD r FLT_MAX = (F.getD d default).val) ∧
  (∀ r, b.end_.getD r FLT_MAX = FLT_MAX ∨
    ∃ d, d < k ∧ (m.getD d []).getLast? = some r ∧
      b.end_.getD r FLT_MAX = (F.getD d default).val)

/-! ## The reference sweep of the specification -/

/-- The symmetric difference of two columns: the row indices present in
exactly one of the two, in ascending order. -/
def symmetric_difference (a b : List Nat) : List Nat :=
  sort_rows (a.filter (fun x => x ∉ b) ++ b.filter (fun x => x ∉ a))

/-- The inner loop of the reference sweep, with fuel: while the column is
non-empty and its low is owned by an earlier finalized column `p`, replace the
column by its symmetric difference with column `p`. -/
def reference_column (owner : Nat → Option Nat) (m : matrix) : Nat → List Nat → Option (List Nat)
  | 0, _ => none
  | fuel + 1, column =>
    match low column with
    | none => some column
    | some l =>
      match owner l with
      | none => some column
      | some p => reference_column owner m fuel (symmetric_difference column (m.getD p []))

/-- One column of the reference sweep: reduce the column, then register its
low only if it ended non-empty. -/
def reference_step (fuel : Nat) (st : Option (matrix × (Nat → Option Nat))) (c : Nat) :
    Option (matrix × (Nat → Option Nat)) :=
  match st with
  | none => none
  | some (m, owner) =>
    match reference_column owner m fuel (m.getD c []) with
    | none => none
    | some column =>
      some (m.set c column,
        match low column with
        | some l => assign owner l c
        | none => owner)

/-- The reference left-to-right sweep of the specification. -/
def reference_reduction (fuel : Nat) (m : matrix) : Option matrix :=
  ((List.range m.length).foldl (reference_step fuel) (some (m, fun _ => none))).map Prod.fst

/-! ## Concrete filtrations -/

/-- A valid filtration: the vertices 0, 1, 2, 3 at time 0, then the edges
{2,3}, {1,2}, {1,3}, {0,2} at times 1, 2, 3, 4. -/
def filtration_four_edges : List simplex :=
  [⟨0, 0, ⟨[0], by decide⟩⟩, ⟨0, 0, ⟨[1], by decide⟩⟩, ⟨0, 0, ⟨[2], by decide⟩⟩,
   ⟨0, 0, ⟨[3], by decide⟩⟩, ⟨1, 1, ⟨[2, 3], by decide⟩⟩, ⟨1, 2, ⟨[1, 2], by decide⟩⟩,
   ⟨1, 3, ⟨[1, 3], by decide⟩⟩, ⟨1, 4, ⟨[0, 2], by decide⟩⟩]

/-- The simplices {0}, {1}, {0,1} in this order. -/
def filtration_edge : List simplex :=
  [⟨0, 0, ⟨[0], by decide⟩⟩, ⟨0, 0, ⟨[1], by decide⟩⟩, ⟨1, 1, ⟨[0, 1], by decide⟩⟩]

/-- The reduced boundary matrix of scenario A. -/
def reduced_triangle : matrix :=
  [[], [], [], [0, 1], [0, 2], [], [3, 4, 5]]

/-- Scenario A in filtration order. -/
def sorted_triangle : List simplex :=
  [⟨0, 0, ⟨[0], by decide⟩⟩, ⟨0, 0, ⟨[1], by decide⟩⟩, ⟨0, 0, ⟨[2], by decide⟩⟩,
   ⟨1, 1, ⟨[0, 1], by decide⟩⟩, ⟨1, 1, ⟨[0, 2], by decide⟩⟩, ⟨1, 1, ⟨[1, 2], by decide⟩⟩,
   ⟨2, 2, ⟨[0, 1, 2], by decide⟩⟩]

/-- Scenario B: the vertices {0} and {1} at time 0. -/
def scenario_B : List simplex :=
  [⟨0, 0, ⟨[0], by decide⟩⟩, ⟨0, 0, ⟨[1], by decide⟩⟩]

/-- Scenario C: the vertex {0} at time 0.5. -/
def scenario_C : List simplex :=
  [⟨0, 1 / 2, ⟨[0], by decide⟩⟩]

/-- Scenario A: the vertices {0}, {1}, {2} at time 0, the edges {0,1}, {1,2},
{0,2} at time 1 and the triangle {0,1,2} at time 2. -/
def scenario_A : List simplex :=
  [⟨0, 0, ⟨[0], by decide⟩⟩, ⟨0, 0, ⟨[1], by decide⟩⟩, ⟨0, 0, ⟨[2], by decide⟩⟩,
   ⟨1, 1, ⟨[0, 1], by decide⟩⟩, ⟨1, 1, ⟨[1, 2], by decide⟩⟩, ⟨1, 1, ⟨[0, 2], by decide⟩⟩,
   ⟨2, 2, ⟨[0, 1, 2], by decide⟩⟩]

/-! ## Vocabulary for the order of the output, the inner loop and valid filtrations -/

/-- The lexicographic order "not greater" on the triples (start, dimension,
end) of two intervals; the unbounded end takes part with its value `FLT_MAX`. -/
def interval_le (a b : interval) : Prop :=
  a.start < b.start ∨ (a.start = b.start ∧ (a.dim < b.dim ∨ (a.dim = b.dim ∧ a.end_ ≤ b.end_)))

instance (a b : interval) : Decidable (interval_le a b) :=
  inferInstanceAs (Decidable
    (a.start < b.start ∨ (a.start = b.start ∧ (a.dim < b.dim ∨ (a.dim = b.dim ∧ a.end_ ≤ b.end_)))))

/-- The states of the `do … while` loop of `reduction` on column `i`:
`inner_loop inverse_low i m m3` says that the loop entered with the matrix `m`
stands at the top of its body with the matrix `m3`.  It does so on entry, and
again after each call of `add` that leaves column `i` non-empty. -/
inductive inner_loop (inverse_low : Nat → Option Nat) (i : Nat) (m : matrix) : matrix → Prop
  | entry : inner_loop inverse_low i m m
  | addition (m3 : matrix) (L p : Nat) :
      inner_loop inverse_low i m m3 →
      (m3.getD i []).getLast? = some L →
      inverse_low L = some p →
      add (m3.getD i []) (m3.getD p []) ≠ [] →
      inner_loop inverse_low i m (m3.set i (add (m3.getD i []) (m3.getD p [])))

/-- A valid filtration: pairwise distinct vertex sets, in filtration order,
every simplex of dimension at least 0 with dimension + 1 vertices, and every
codimension-1 face of a simplex of positive dimension occurring earlier. -/
def valid_filtration (F : List simplex) : Prop :=
  (F.map simplex.vert).Nodup ∧ sort F = F ∧
  (∀ s ∈ F, 0 ≤ s.dim ∧ (s.vert.elems.length : Int) = s.dim + 1) ∧
  ∀ c ∈ List.range F.length, 0 < (F.getD c default).dim →
    ∀ v ∈ (F.getD c default).vert.elems,
      ∃ r ∈ List.range c, (F.getD r default).vert = (F.getD c default).vert.erase v

instance (F : List simplex) : Decidable (valid_filtration F) :=
  inferInstanceAs (Decidable
    ((F.map simplex.vert).Nodup ∧ sort F = F ∧
      (∀ s ∈ F, 0 ≤ s.dim ∧ (s.vert.elems.length : Int) = s.dim + 1) ∧
      ∀ c ∈ List.range F.length, 0 < (F.getD c default).dim →
        ∀ v ∈ (F.getD c default).vert.elems,
          ∃ r ∈ List.range c, (F.getD r default).vert = (F.getD c default).vert.erase v))

/-- The boundary matrix of `filtration_four_edges`. -/
def boundary_four_edges : matrix :=
  [[], [], [], [], [2, 3], [1, 2], [1, 3], [0, 2]]

/-- A valid filtration: `filtration_four_edges` followed by the edge {0,1} at
time 5 and the triangle {0,1,2} at time 6. -/
def filtration_triangle_late : List simplex :=
  [⟨0, 0, ⟨[0], by decide⟩⟩, ⟨0, 0, ⟨[1], by decide⟩⟩, ⟨0, 0, ⟨[2], by decide⟩⟩,
   ⟨0, 0, ⟨[3], by decide⟩⟩, ⟨1, 1, ⟨[2, 3], by decide⟩⟩, ⟨1, 2, ⟨[1, 2], by decide⟩⟩,
   ⟨1, 3, ⟨[1, 3], by decide⟩⟩, ⟨1, 4, ⟨[0, 2], by decide⟩⟩, ⟨1, 5, ⟨[0, 1], by decide⟩⟩,
   ⟨2, 6, ⟨[0, 1, 2], by decide⟩⟩]

/-! ## Lemmas on lists -/

theorem getD_set_self {α : Type} {d : α} (l : List α) (i : Nat) (c : α) (h : i < l.length) :
    (l.set i c).getD i d = c := by
  simp [List.getD_eq_getElem?_getD, List.getElem?_set, h]

theorem getD_set_ne {α : Type} {d : α} (l : List α) (i j : Nat) (c : α) (h : i ≠ j) :
    (l.set i c).getD j d = l.getD j d := by
  simp [List.getD_eq_getElem?_getD, List.getElem?_set, h]

theorem range_map_getD {α : Type} (d : α) (l : List α) :
    (List.range l.length).map (fun c => l.getD c d) = l := by
  apply List.ext_getElem
  · simp
  · intro n h1 h2
    simp [List.getD_eq_getElem?_getD, List.getElem?_eq_getElem h2]

theorem getD_mem_or_nil (m : matrix) (i : Nat) : m.getD i [] ∈ m ∨ m.getD i [] = [] := by
  by_cases h : i < m.length
  · left
    rw [List.getD_eq_getElem _ _ h]
    exact List.getElem_mem h
  · right
    simp [List.getD_eq_getElem?_getD, List.getElem?_eq_none (Nat.le_of_not_lt h)]

theorem ascending_getD {m : matrix} (h : ascending m) (i : Nat) :
    (m.getD i []).Pairwise (· < ·) := by
  rcases getD_mem_or_nil m i with h1 | h1
  · exact h _ h1
  · rw [h1]; exact List.Pairwise.nil

theorem ascending_set {m : matrix} (h : ascending m) (i : Nat) {c : List Nat}
    (hc : c.Pairwise (· < ·)) : ascending (m.set i c) := by
  intro column hcol
  rcases List.mem_or_eq_of_mem_set hcol with h1 | h1
  · exact h _ h1
  · rw [h1]; exact hc

theorem le_of_getLast? {l : List Nat} (hl : l.Pairwise (· < ·)) {L : Nat}
    (h : l.getLast? = some L) : ∀ x ∈ l, x ≤ L := by
  obtain ⟨ys, rfl⟩ := List.getLast?_eq_some_iff.1 h
  intro x hx
  rw [List.pairwise_append] at hl
  rcases List.mem_append.1 hx with h1 | h1
  · exact Nat.le_of_lt (hl.2.2 x h1 L (List.mem_singleton_self L))
  · rw [List.mem_singleton.1 h1]

/-! ## Lemmas on `add` -/

theorem add_nil_right (self : List Nat) : add self [] = [] := by
  cases self <;> rfl

theorem add_cons_cons (a b : Nat) (as bs : List Nat) :
    add (a :: as) (b :: bs) =
      if a = b then add as bs
      else if a < b then a :: add as (b :: bs)
      else b :: add (a :: as) bs := rfl

theorem add_subset : ∀ (self other : List Nat) (x : Nat),
    x ∈ add self other → x ∈ self ∨ x ∈ other := by
  intro self
  induction self with
  | nil => intro other x h; simp [add] at h
  | cons a as ih =>
    intro other
    induction other with
    | nil => intro x h; simp [add_nil_right] at h
    | cons b bs ih2 =>
      intro x h
      rw [add_cons_cons] at h
      split_ifs at h with h1 h2
      · rcases ih bs x h with h3 | h3
        · exact Or.inl (List.mem_cons_of_mem _ h3)
        · exact Or.inr (List.mem_cons_of_mem _ h3)
      · rcases List.mem_cons.1 h with h3 | h3
        · exact Or.inl (h3 ▸ List.mem_cons_self _ _)
        · rcases ih (b :: bs) x h3 with h4 | h4
          · exact Or.inl (List.mem_cons_of_mem _ h4)
          · exact Or.inr h4
      · rcases List.mem_cons.1 h with h3 | h3
        · exact Or.inr (h3 ▸ List.mem_cons_self _ _)
        · rcases ih2 x h3 with h4 | h4
          · exact Or.inl h4
          · exact Or.inr (List.mem_cons_of_mem _ h4)

theorem add_mem_ascending : ∀ (self other : List Nat),
    self.Pairwise (· < ·) → other.Pairwise (· < ·) → ∀ x, x ∈ add self other →
      (x ∈ self ∧ x ∉ other) ∨ (x ∉ self ∧ x ∈ other) := by
  intro self
  induction self with
  | nil => intro other _ _ x h; simp [add] at h
  | cons a as ih =>
    intro other
    induction other with
    | nil => intro _ _ x h; simp [add_nil_right] at h
    | cons b bs ih2 =>
      intro hs ho x h
      have hs1 := hs
      have ho1 := ho
      rw [List.pairwise_cons] at hs1 ho1
      rw [add_cons_cons] at h
      split_ifs at h with h1 h2
      · subst h1
        have hx : a < x := by
          rcases add_subset as bs x h with h3 | h3
          · exact hs1.1 x h3
          · exact ho1.1 x h3
        rcases ih bs hs1.2 ho1.2 x h with ⟨h3, h4⟩ | ⟨h3, h4⟩
        · left
          refine ⟨List.mem_cons_of_mem _ h3, ?_⟩
          intro h5
          rcases List.mem_cons.1 h5 with h6 | h6
          · omega
          · exact h4 h6
        · right
          refine ⟨?_, List.mem_cons_of_mem _ h4⟩
          intro h5
          rcases List.mem_cons.1 h5 with h6 | h6
          · omega
          · exact h3 h6
      · rcases List.mem_cons.1 h with h3 | h3
        · subst h3
          left
          refine ⟨List.mem_cons_self _ _, ?_⟩
          intro h5
          rcases List.mem_cons.1 h5 with h6 | h6
          · omega
          · have := ho1.1 x h6
            omega
        · rcases ih (b :: bs) hs1.2 ho x h3 with ⟨h4, h5⟩ | ⟨h4, h5⟩
          · exact Or.inl ⟨List.mem_cons_of_mem _ h4, h5⟩
          · right
            refine ⟨?_, h5⟩
            intro h6
            rcases List.mem_cons.1 h6 with h7 | h7
            · subst h7
              rcases List.mem_cons.1 h5 with h8 | h8
              · omega
              · have := ho1.1 x h8
                omega
            · exact h4 h7
      · have hba : b < a := by omega
        rcases List.mem_cons.1 h with h3 | h3
        · subst h3
          right
          refine ⟨?_, List.mem_cons_self _ _⟩
          intro h5
          rcases List.mem_cons.1 h5 with h6 | h6
          · omega
          · have := hs1.1 x h6
            omega
        · rcases ih2 hs ho1.2 x h3 with ⟨h4, h5⟩ | ⟨h4, h5⟩
          · left
            refine ⟨h4, ?_⟩
            intro h6
            rcases List.mem_cons.1 h6 with h7 | h7
            · subst h7
              rcases List.mem_cons.1 h4 with h8 | h8
              · omega
              · have := hs1.1 x h8
                omega
            · exact h5 h7
          · exact Or.inr ⟨h4, List.mem_cons_of_mem _ h5⟩

theorem add_ascending : ∀ (self other : List Nat),
    self.Pairwise (· < ·) → other.Pairwise (· < ·) → (add self other).Pairwise (· < ·) := by
  intro self
  induction self with
  | nil => intro other _ _; simp [add]
  | cons a as ih =>
    intro other
    induction other with
    | nil => intro _ _; simp [add_nil_right]
    | cons b bs ih2 =>
      intro hs ho
      have hs1 := hs
      have ho1 := ho
      rw [List.pairwise_cons] at hs1 ho1
      rw [add_cons_cons]
      split_ifs with h1 h2
      · exact ih bs hs1.2 ho1.2
      · refine List.Pairwise.cons ?_ (ih (b :: bs) hs1.2 ho)
        intro x hx
        rcases add_subset as (b :: bs) x hx with h3 | h3
        · exact hs1.1 x h3
        · rcases List.mem_cons.1 h3 with h4 | h4
          · omega
          · have := ho1.1 x h4
            omega
      · refine List.Pairwise.cons ?_ (ih2 hs ho1.2)
        intro x hx
        rcases add_subset (a :: as) bs x hx with h3 | h3
        · rcases List.mem_cons.1 h3 with h4 | h4
          · omega
          · have := hs1.1 x h4
            omega
        · exact ho1.1 x h3

/-- Adding a column with the same last entry leaves only entries below it. -/
theorem add_lt_low {self other : List Nat} (hs : self.Pairwise (· < ·))
    (ho : other.Pairwise (· < ·)) {L : Nat} (h1 : self.getLast? = some L)
    (h2 : other.getLast? = some L) : ∀ x ∈ add self other, x < L := by
  intro x hx
  have m1 := List.mem_of_getLast?_eq_some h1
  have m2 := List.mem_of_getLast?_eq_some h2
  rcases add_mem_ascending self other hs ho x hx with ⟨h3, h4⟩ | ⟨h3, h4⟩
  · have := le_of_getLast? hs h1 x h3
    have : x ≠ L := fun h => h4 (h ▸ m2)
    omega
  · have := le_of_getLast? ho h2 x h4
    have : x ≠ L := fun h => h3 (h ▸ m1)
    omega

/-! ## The sweep of `reduction` -/

theorem reduce_column_spec (inverse_low : Nat → Option Nat) (i : Nat) :
    ∀ (fuel : Nat) (m : matrix), i < m.length → ascending m → m.getD i [] ≠ [] →
      (∀ low p, inverse_low low = some p →
        p < i ∧ (m.getD p [] = [] ∨ (m.getD p []).getLast? = some low)) →
      (∀ m2 low, reduce_column inverse_low i fuel m = some (m2, low) →
        column_post inverse_low i m m2 low) ∧
      (reduce_column inverse_low i fuel m = none → ∃ x ∈ m.getD i [], fuel ≤ x) := by
  intro fuel
  induction fuel with
  | zero =>
    intro m _ _ hne _
    refine ⟨fun m2 low h => by simp [reduce_column] at h, fun _ => ?_⟩
    obtain ⟨x, hx⟩ := List.exists_mem_of_ne_nil _ hne
    exact ⟨x, hx, Nat.zero_le _⟩
  | succ fuel ih =>
    intro m hi ha hne hinv
    obtain ⟨L, hL⟩ : ∃ L, (m.getD i []).getLast? = some L := by
      cases h : (m.getD i []).getLast? with
      | none => exact absurd (List.getLast?_eq_none_iff.1 h) hne
      | some L => exact ⟨L, rfl⟩
    cases hp : inverse_low L with
    | none =>
      have e : reduce_column inverse_low i (fuel + 1) m = some (m, L) := by
        simp only [reduce_column, hL, hp]
      rw [e]
      refine ⟨?_, fun h => by simp at h⟩
      intro m2 low h
      simp only [Option.some.injEq, Prod.mk.injEq] at h
      obtain ⟨rfl, rfl⟩ := h
      exact ⟨rfl, ha, fun _ _ => rfl, Or.inr ⟨hL, hp⟩, fun r hr => Or.inl hr⟩
    | some p =>
      obtain ⟨hpi, hpcol⟩ := hinv L p hp
      have hm1i : (m.set i (add (m.getD i []) (m.getD p []))).getD i [] =
          add (m.getD i []) (m.getD p []) := getD_set_self _ _ _ hi
      have hm1j : ∀ j, j ≠ i → (m.set i (add (m.getD i []) (m.getD p []))).getD j [] =
          m.getD j [] := fun j hj => getD_set_ne _ _ _ _ (Ne.symm hj)
      have ha1 : ascending (m.set i (add (m.getD i []) (m.getD p []))) :=
        ascending_set ha i (add_ascending _ _ (ascending_getD ha i) (ascending_getD ha p))
      have hlen : (m.set i (add (m.getD i []) (m.getD p []))).length = m.length :=
        List.length_set ..
      have hsub : ∀ r ∈ add (m.getD i []) (m.getD p []),
          r ∈ m.getD i [] ∨ ∃ q, q < i ∧ r ∈ m.getD q [] := by
        intro r hr
        rcases add_subset _ _ r hr with h1 | h1
        · exact Or.inl h1
        · exact Or.inr ⟨p, hpi, h1⟩
      by_cases hemp : ((m.set i (add (m.getD i []) (m.getD p []))).getD i []).length > 0
      · have e : reduce_column inverse_low i (fuel + 1) m =
            reduce_column inverse_low i fuel (m.set i (add (m.getD i []) (m.getD p []))) := by
          simp only [reduce_column, hL, hp, if_pos hemp]
        rw [e]
        have hne1 : (m.set i (add (m.getD i []) (m.getD p []))).getD i [] ≠ [] :=
          List.ne_nil_of_length_pos hemp
        have hinv1 : ∀ low q, inverse_low low = some q → q < i ∧
            ((m.set i (add (m.getD i []) (m.getD p []))).getD q [] = [] ∨
              ((m.set i (add (m.getD i []) (m.getD p []))).getD q []).getLast? = some low) := by
          intro low q hq
          obtain ⟨h1, h2⟩ := hinv low q hq
          rw [hm1j q (Nat.ne_of_lt h1)]
          exact ⟨h1, h2⟩
        obtain ⟨ih1, ih2⟩ := ih _ (by rw [hlen]; exact hi) ha1 hne1 hinv1
        refine ⟨?_, ?_⟩
        · intro m2 low h
          obtain ⟨p1, p2, p3, p4, p5⟩ := ih1 m2 low h
          refine ⟨p1.trans hlen, p2, fun j hj => (p3 j hj).trans (hm1j j hj), p4, ?_⟩
          intro r hr
          rcases p5 r hr with h1 | ⟨q, hq, h1⟩
          · rw [hm1i] at h1
            exact hsub r h1
          · rw [hm1j q (Nat.ne_of_lt hq)] at h1
            exact Or.inr ⟨q, hq, h1⟩
        · intro h
          obtain ⟨x, hx, hfx⟩ := ih2 h
          rw [hm1i] at hx hne1
          have hpne : m.getD p [] ≠ [] := by
            intro h0
            rw [h0, add_nil_right] at hne1
            exact hne1 rfl
          have hpL : (m.getD p []).getLast? = some L := by
            rcases hpcol with h0 | h0
            · exact absurd h0 hpne
            · exact h0
          have := add_lt_low (ascending_getD ha i) (ascending_getD ha p) hL hpL x hx
          exact ⟨L, List.mem_of_getLast?_eq_some hL, by omega⟩
      · have e : reduce_column inverse_low i (fuel + 1) m =
            some (m.set i (add (m.getD i []) (m.getD p [])), L) := by
          simp only [reduce_column, hL, hp, if_neg hemp]
        rw [e]
        refine ⟨?_, fun h => by simp at h⟩
        intro m2 low h
        simp only [Option.some.injEq, Prod.mk.injEq] at h
        obtain ⟨rfl, rfl⟩ := h
        have h0 : (m.set i (add (m.getD i []) (m.getD p []))).getD i [] = [] := by
          apply List.eq_nil_of_length_eq_zero
          omega
        refine ⟨hlen, ha1, hm1j, Or.inl ⟨h0, by simp [hp]⟩, ?_⟩
        intro r hr
        rw [h0] at hr
        simp at hr

theorem sweep_inv_zero (m : matrix) (h : ascending m) : sweep_inv m 0 m (fun _ => none) := by
  refine ⟨rfl, h, fun _ _ => rfl, ?_, ?_, ?_, ?_⟩
  · intro low p hp; simp at hp
  · intro j hj; omega
  · intro i j hi; omega
  · intro c r hr; exact ⟨c, Nat.le_refl c, hr⟩

theorem sweep_inv_skip {m m2 : matrix} {k : Nat} {inverse_low : Nat → Option Nat}
    (h : sweep_inv m k m2 inverse_low) (hk : m2.getD k [] = []) :
    sweep_inv m (k + 1) m2 inverse_low := by
  obtain ⟨h1, h2, h3, h4, h5, h6, h7⟩ := h
  refine ⟨h1, h2, fun j hj => h3 j (by omega), ?_, ?_, ?_, h7⟩
  · intro low p hp
    obtain ⟨a, b⟩ := h4 low p hp
    exact ⟨by omega, b⟩
  · intro j hj hne
    have : j ≠ k := fun e => hne (e ▸ hk)
    exact h5 j (by omega) hne
  · intro i j hi hj hij hni hnj
    have : i ≠ k := fun e => hni (e ▸ hk)
    have : j ≠ k := fun e => hnj (e ▸ hk)
    exact h6 i j (by omega) (by omega) hij hni hnj

theorem sweep_inv_step {m m2 m3 : matrix} {k lw : Nat} {inverse_low : Nat → Option Nat}
    (h : sweep_inv m k m2 inverse_low) (hp : column_post inverse_low k m2 m3 lw) :
    sweep_inv m (k + 1) m3 (assign inverse_low lw k) := by
  obtain ⟨h1, h2, h3, h4, h5, h6, h7⟩ := h
  obtain ⟨p1, p2, p3, p4, p5⟩ := hp
  refine ⟨p1.trans h1, p2, ?_, ?_, ?_, ?_, ?_⟩
  · intro j hj
    rw [p3 j (by omega)]
    exact h3 j (by omega)
  · intro L p hLp
    unfold assign at hLp
    split_ifs at hLp with hc
    · simp only [Option.some.injEq] at hLp
      subst hLp
      subst hc
      refine ⟨Nat.lt_succ_self _, ?_⟩
      rcases p4 with ⟨a, _⟩ | ⟨a, _⟩
      · exact Or.inl a
      · exact Or.inr a
    · obtain ⟨a, b⟩ := h4 L p hLp
      rw [p3 p (by omega)]
      exact ⟨by omega, b⟩
  · intro j hj hne
    by_cases hjk : j = k
    · subst hjk
      rcases p4 with ⟨a, _⟩ | ⟨a, _⟩
      · exact absurd a hne
      · exact ⟨lw, a, by simp [assign]⟩
    · rw [p3 j hjk] at hne ⊢
      obtain ⟨L, a, b⟩ := h5 j (by omega) hne
      refine ⟨L, a, ?_⟩
      unfold assign
      split_ifs
      · rfl
      · exact b
  · have key : ∀ j, j < k → m3.getD j [] ≠ [] → m3.getD k [] ≠ [] →
        low (m3.getD j []) ≠ low (m3.getD k []) := by
      intro j hj hnj hnk
      rcases p4 with ⟨a, _⟩ | ⟨a, b⟩
      · exact absurd a hnk
      · rw [p3 j (by omega)] at hnj ⊢
        obtain ⟨L, c, d⟩ := h5 j hj hnj
        unfold HomologyGroups.low
        rw [a, c]
        intro e
        simp only [Option.some.injEq] at e
        subst e
        rw [b] at d
        simp at d
    intro i j hi hj hij hni hnj
    by_cases hik : i = k
    · subst hik
      exact (key j (by omega) hnj hni).symm
    · by_cases hjk : j = k
      · subst hjk
        exact key i (by omega) hni hnj
      · rw [p3 i hik] at hni ⊢
        rw [p3 j hjk] at hnj ⊢
        exact h6 i j (by omega) (by omega) hij hni hnj
  · intro c r hr
    by_cases hck : c = k
    · subst hck
      rcases p5 r hr with a | ⟨q, hq, a⟩
      · exact h7 c r a
      · obtain ⟨c', hc', b⟩ := h7 q r a
        exact ⟨c', by omega, b⟩
    · rw [p3 c hck] at hr
      exact h7 c r hr

theorem reduction_loop_succ (fuel : Nat) (m : matrix) (k : Nat) :
    reduction_loop fuel m (k + 1) = reduction_step fuel (reduction_loop fuel m k) k := by
  unfold reduction_loop
  rw [List.range_succ, List.foldl_append]
  rfl

theorem reduction_loop_spec (fuel : Nat) (m : matrix) (h : ascending m) :
    ∀ k, k ≤ m.length →
      (∀ m2 inverse_low, reduction_loop fuel m k = some (m2, inverse_low) →
        sweep_inv m k m2 inverse_low) ∧
      (reduction_loop fuel m k = none → ∃ column ∈ m, ∃ x ∈ column, fuel ≤ x) := by
  intro k
  induction k with
  | zero =>
    intro _
    refine ⟨?_, fun e => by simp [reduction_loop] at e⟩
    intro m2 inverse_low e
    simp only [reduction_loop, List.range_zero, List.foldl_nil, Option.some.injEq,
      Prod.mk.injEq] at e
    obtain ⟨rfl, rfl⟩ := e
    exact sweep_inv_zero m h
  | succ k ih =>
    intro hk
    obtain ⟨ih1, ih2⟩ := ih (by omega)
    rw [reduction_loop_succ]
    cases hst : reduction_loop fuel m k with
    | none =>
      refine ⟨fun m2 inverse_low e => by simp [reduction_step] at e, fun _ => ih2 hst⟩
    | some st =>
      obtain ⟨m2, inverse_low⟩ := st
      have hinv := ih1 m2 inverse_low hst
      by_cases hemp : (m2.getD k []).length = 0
      · have e : reduction_step fuel (some (m2, inverse_low)) k = some (m2, inverse_low) := by
          simp only [reduction_step, if_pos hemp]
        rw [e]
        refine ⟨?_, fun e => by simp at e⟩
        intro m3 inv3 e3
        simp only [Option.some.injEq, Prod.mk.injEq] at e3
        obtain ⟨rfl, rfl⟩ := e3
        exact sweep_inv_skip hinv (List.eq_nil_of_length_eq_zero hemp)
      · have hne : m2.getD k [] ≠ [] := fun e => hemp (by rw [e]; rfl)
        have hinv0 := hinv
        obtain ⟨q1, q2, q3, q4, _⟩ := hinv0
        obtain ⟨s1, s2⟩ := reduce_column_spec inverse_low k fuel m2 (by omega) q2 hne q4
        cases hrc : reduce_column inverse_low k fuel m2 with
        | none =>
          have e : reduction_step fuel (some (m2, inverse_low)) k = none := by
            simp only [reduction_step, if_neg hemp, hrc]
          rw [e]
          refine ⟨fun m3 inv3 e3 => by simp at e3, fun _ => ?_⟩
          obtain ⟨x, hx, hfx⟩ := s2 hrc
          rw [q3 k (Nat.le_refl k)] at hx
          rcases getD_mem_or_nil m k with h0 | h0
          · exact ⟨_, h0, x, hx, hfx⟩
          · rw [h0] at hx
            simp at hx
        | some res =>
          obtain ⟨m3, L⟩ := res
          have e : reduction_step fuel (some (m2, inverse_low)) k =
              some (m3, assign inverse_low L k) := by
            simp only [reduction_step, if_neg hemp, hrc]
          rw [e]
          refine ⟨?_, fun e => by simp at e⟩
          intro m4 inv4 e4
          simp only [Option.some.injEq, Prod.mk.injEq] at e4
          obtain ⟨rfl, rfl⟩ := e4
          exact sweep_inv_step hinv (s1 m3 L hrc)

theorem lt_enough_fuel (m : matrix) : ∀ column ∈ m, ∀ x ∈ column, x < enough_fuel m := by
  intro column hc x hx
  have : x ∈ m.flatten := List.mem_flatten.2 ⟨column, hc, hx⟩
  have := List.single_le_sum (fun _ _ => Nat.zero_le _) x this
  unfold enough_fuel
  omega

/-- On a matrix with ascending columns `reduction` returns as soon as the fuel
exceeds every entry. -/
theorem reduction_returns (m : matrix) (h : ascending m) (fuel : Nat)
    (hf : ∀ column ∈ m, ∀ x ∈ column, x < fuel) : ∃ r, reduction fuel m = some r := by
  obtain ⟨_, s2⟩ := reduction_loop_spec fuel m h m.length (Nat.le_refl _)
  cases hst : reduction_loop fuel m m.length with
  | none =>
    obtain ⟨column, hc, x, hx, hfx⟩ := s2 hst
    have := hf column hc x hx
    omega
  | some st => exact ⟨st.1, by simp [reduction, hst]⟩

/-- What `reduction` returns satisfies the invariant of the completed sweep. -/
theorem reduction_inv (m : matrix) (h : ascending m) (fuel : Nat) (r : matrix)
    (hr : reduction fuel m = some r) : ∃ inverse_low, sweep_inv m m.length r inverse_low := by
  obtain ⟨s1, _⟩ := reduction_loop_spec fuel m h m.length (Nat.le_refl _)
  unfold reduction at hr
  cases hst : reduction_loop fuel m m.length with
  | none => rw [hst] at hr; simp at hr
  | some st =>
    rw [hst] at hr
    simp only [Option.map_some', Option.some.injEq] at hr
    subst hr
    exact ⟨st.2, s1 st.1 st.2 hst⟩

theorem low_injective_of_sweep_inv {m r : matrix} {inverse_low : Nat → Option Nat}
    (h : sweep_inv m m.length r inverse_low) : low_injective r := by
  obtain ⟨h1, _, _, _, _, h6, _⟩ := h
  intro i j hi hj hij hni hnj
  exact h6 i j (by omega) (by omega) hij hni hnj

/-! ## Running `reduction` on a matrix whose low function is injective -/

theorem reduction_loop_fixed (fuel : Nat) (r : matrix) (h : low_injective r) :
    ∀ k, k ≤ r.length → ∃ inverse_low,
      reduction_loop (fuel + 1) r k = some (r, inverse_low) ∧
      ∀ L, (inverse_low L).isSome → ∃ j, j < k ∧ r.getD j [] ≠ [] ∧ low (r.getD j []) = some L := by
  intro k
  induction k with
  | zero =>
    intro _
    exact ⟨fun _ => none, rfl, fun L hL => by simp at hL⟩
  | succ k ih =>
    intro hk
    obtain ⟨inverse_low, e, hdom⟩ := ih (by omega)
    rw [reduction_loop_succ, e]
    by_cases hemp : (r.getD k []).length = 0
    · refine ⟨inverse_low, by simp only [reduction_step, if_pos hemp], ?_⟩
      intro L hL
      obtain ⟨j, hj, a⟩ := hdom L hL
      exact ⟨j, by omega, a⟩
    · have hne : r.getD k [] ≠ [] := fun e => hemp (by rw [e]; rfl)
      obtain ⟨L, hL⟩ : ∃ L, (r.getD k []).getLast? = some L := by
        cases h0 : (r.getD k []).getLast? with
        | none => exact absurd (List.getLast?_eq_none_iff.1 h0) hne
        | some L => exact ⟨L, rfl⟩
      have hfree : inverse_low L = none := by
        cases h0 : inverse_low L with
        | none => rfl
        | some p =>
          exfalso
          obtain ⟨j, hj, a, b⟩ := hdom L (by simp [h0])
          exact h j k (by omega) (by omega) (by omega) a hne (by rw [b]; exact hL.symm)
      have hrc : reduce_column inverse_low k (fuel + 1) r = some (r, L) := by
        simp only [reduce_column, hL, hfree]
      refine ⟨assign inverse_low L k, by simp only [reduction_step, if_neg hemp, hrc], ?_⟩
      intro L2 hL2
      unfold assign at hL2
      split_ifs at hL2 with hc
      · subst hc
        exact ⟨k, Nat.lt_succ_self _, hne, hL⟩
      · obtain ⟨j, hj, a⟩ := hdom L2 hL2
        exact ⟨j, by omega, a⟩

theorem reduction_fixed (fuel : Nat) (r : matrix) (h : low_injective r) :
    reduction (fuel + 1) r = some r := by
  obtain ⟨inverse_low, e, _⟩ := reduction_loop_fixed fuel r h r.length (Nat.le_refl _)
  simp [reduction, e]

/-- C2, evaluated: on the boundary matrix of a valid filtration (four
vertices, then the edges {2,3}, {1,2}, {1,3}, {0,2}) `reduction` empties the
last column, while the reference sweep of the specification leaves `[0, 1]`
there.  Column 6 is reduced to empty by adding column 5 and is then registered
as the owner of low 2; column 7, whose low is 2, is added the empty column 6
and `add` drops all its entries. -/
theorem reduction_differs_from_reference :
    make_matrix (sort filtration_four_edges) = [[], [], [], [], [2, 3], [1, 2], [1, 3], [0, 2]] ∧
    ∀ fuel,
      reduction (fuel + 3) [[], [], [], [], [2, 3], [1, 2], [1, 3], [0, 2]] =
        some [[], [], [], [], [2, 3], [1, 2], [], []] ∧
      reference_reduction (fuel + 3) [[], [], [], [], [2, 3], [1, 2], [1, 3], [0, 2]] =
        some [[], [], [], [], [2, 3], [1, 2], [], [0, 1]] := by
  refine ⟨by decide, fun fuel => ⟨?_, ?_⟩⟩
  · rfl
  · rfl

/-- C7: idempotence of reduction.  On a matrix with strictly ascending columns
`reduction` returns a matrix, and running `reduction` (with any fuel that
allows one pass of the inner loop) on that matrix returns it unchanged. -/
theorem reduction_idempotent (m : matrix) (h : ascending m) :
    (∃ fuel r, reduction fuel m = some r) ∧
    ∀ fuel r, reduction fuel m = some r → ∀ fuel2, reduction (fuel2 + 1) r = some r := by
  refine ⟨?_, ?_⟩
  · obtain ⟨r, hr⟩ := reduction_returns m h (enough_fuel m) (lt_enough_fuel m)
    exact ⟨_, r, hr⟩
  · intro fuel r hr fuel2
    obtain ⟨inverse_low, hinv⟩ := reduction_inv m h fuel r hr
    exact reduction_fixed fuel2 r (low_injective_of_sweep_inv hinv)

theorem reduction_idempotent_witness :
    ascending [[], [], [1], [1], [0, 1]] ∧
    ((∃ fuel r, reduction fuel [[], [], [1], [1], [0, 1]] = some r) ∧
      ∀ fuel r, reduction fuel [[], [], [1], [1], [0, 1]] = some r →
        ∀ fuel2, reduction (fuel2 + 1) r = some r) :=
  ⟨by decide, reduction_idempotent [[], [], [1], [1], [0, 1]] (by decide)⟩

/-! ## Lemmas on `set<int>` -/

theorem vertices_ext {s t : vertices} (h : s.elems = t.elems) : s = t := by
  cases s
  cases t
  simp only at h
  subst h
  rfl

theorem insertAsc_erase : ∀ l : List Int, l.Pairwise (· < ·) → ∀ v ∈ l,
    insertAsc v (l.erase v) = l := by
  intro l
  induction l with
  | nil => intro _ v hv; simp at hv
  | cons x xs ih =>
    intro h v hv
    rw [List.pairwise_cons] at h
    by_cases hvx : x = v
    · subst hvx
      rw [List.erase_cons_head]
      cases xs with
      | nil => rfl
      | cons y ys =>
        have := h.1 y (List.mem_cons_self _ _)
        simp only [insertAsc, if_pos this]
    · have hv2 : v ∈ xs := by
        rcases List.mem_cons.1 hv with h1 | h1
        · exact absurd h1.symm hvx
        · exact h1
      have hlt := h.1 v hv2
      rw [List.erase_cons_tail (by simpa using hvx)]
      have h1 : ¬ v < x := by omega
      have h2 : ¬ v = x := by omega
      simp only [insertAsc, if_neg h1, if_neg h2]
      rw [ih h.2 v hv2]

theorem insert_erase (s : vertices) (v : Int) (h : v ∈ s.elems) : (s.erase v).insert v = s :=
  vertices_ext (insertAsc_erase s.elems s.asc v h)

theorem erase_ne_self (s : vertices) (v : Int) (h : v ∈ s.elems) : s.erase v ≠ s := by
  intro e
  have e1 : (s.erase v).elems = s.elems := by rw [e]
  have e2 := List.length_erase_of_mem h
  have e3 : 0 < s.elems.length := List.length_pos_of_mem h
  have e4 : (s.erase v).elems = s.elems.erase v := rfl
  rw [← e4, e1] at e2
  omega

theorem erase_injective (s : vertices) (v w : Int) (hw : w ∈ s.elems)
    (e : s.erase v = s.erase w) : v = w := by
  by_contra hne
  have nd : s.elems.Nodup := s.asc.imp (fun h => ne_of_lt h)
  have e1 : s.elems.erase v = s.elems.erase w := congrArg vertices.elems e
  have h1 : w ∈ s.elems.erase v := (List.mem_erase_of_ne (Ne.symm hne)).2 hw
  rw [e1] at h1
  exact nd.not_mem_erase h1

theorem nodup_filterMap_of_injOn {α β : Type} (f : α → Option β) :
    ∀ l : List α, l.Nodup →
      (∀ a ∈ l, ∀ a2 ∈ l, ∀ b, f a = some b → f a2 = some b → a = a2) →
      (l.filterMap f).Nodup := by
  intro l
  induction l with
  | nil => intro _ _; simp
  | cons x xs ih =>
    intro hnd hinj
    rw [List.nodup_cons] at hnd
    have ih1 := ih hnd.2 (fun a ha a2 ha2 b h1 h2 =>
      hinj a (List.mem_cons_of_mem _ ha) a2 (List.mem_cons_of_mem _ ha2) b h1 h2)
    rw [List.filterMap_cons]
    cases hfx : f x with
    | none => exact ih1
    | some b =>
      simp only
      rw [List.nodup_cons]
      refine ⟨?_, ih1⟩
      intro hb
      obtain ⟨a, ha, hfa⟩ := List.mem_filterMap.1 hb
      have := hinj x (List.mem_cons_self _ _) a (List.mem_cons_of_mem _ ha) b hfx hfa
      exact hnd.1 (this ▸ ha)

theorem sort_rows_ascending (l : List Nat) (h : l.Nodup) : (sort_rows l).Pairwise (· < ·) := by
  have h1 : (sort_rows l).Sorted (· ≤ ·) := List.sorted_insertionSort _ l
  have h2 : (sort_rows l).Nodup := (List.perm_insertionSort _ l).nodup_iff.2 h
  exact h1.lt_of_le h2

theorem mem_sort_rows (l : List Nat) (x : Nat) : x ∈ sort_rows l ↔ x ∈ l :=
  (List.perm_insertionSort _ l).mem_iff

/-! ## The loops and the columns of `make_matrix` -/

theorem face_loop_eq (indices : vertices → Option Nat) (s : vertices) :
    ∀ vs : List Int, (∀ v ∈ vs, v ∈ s.elems) → ∀ column,
      face_loop indices vs s column =
        column ++ vs.filterMap (fun v => indices (s.erase v)) := by
  intro vs
  induction vs with
  | nil => intro _ column; simp [face_loop]
  | cons v vs ih =>
    intro hvs column
    have hv := hvs v (List.mem_cons_self _ _)
    have hrest : ∀ w ∈ vs, w ∈ s.elems := fun w hw => hvs w (List.mem_cons_of_mem _ hw)
    simp only [face_loop]
    rw [insert_erase s v hv, ih hrest, List.filterMap_cons]
    cases indices (s.erase v) with
    | none => rfl
    | some index => simp

theorem build_snoc (n : Nat) (pre : List simplex) (s : simplex) :
    build n (pre ++ [s]) = make_matrix_step (build n pre) s := by
  simp [build, List.foldl_append]

theorem build_col (n : Nat) (pre : List simplex) : (build n pre).col = pre.length := by
  induction pre using List.reverseRecOn with
  | nil => rfl
  | append_singleton pre s ih =>
    rw [build_snoc]
    simp [make_matrix_step, ih]

theorem build_length (n : Nat) (pre : List simplex) : (build n pre).m.length = n := by
  induction pre using List.reverseRecOn with
  | nil => simp [build]
  | append_singleton pre s ih =>
    rw [build_snoc]
    simp [make_matrix_step, ih]

theorem build_tail_nil (n : Nat) (pre : List simplex) :
    ∀ j, pre.length ≤ j → (build n pre).m.getD j [] = [] := by
  induction pre using List.reverseRecOn with
  | nil =>
    intro j _
    simp only [build, List.foldl_nil, List.getD_eq_getElem?_getD, List.getElem?_replicate]
    split_ifs <;> rfl
  | append_singleton pre s ih =>
    intro j hj
    rw [List.length_append, List.length_singleton] at hj
    rw [build_snoc]
    simp only [make_matrix_step, build_col]
    rw [getD_set_ne _ _ _ _ (by omega)]
    exact ih j (by omega)

theorem build_indices_sound (n : Nat) (pre : List simplex) :
    ∀ t r, (build n pre).indices t = some r →
      r < pre.length ∧ (pre[r]?).map simplex.vert = some t := by
  induction pre using List.reverseRecOn with
  | nil => intro t r h; simp [build] at h
  | append_singleton pre s ih =>
    intro t r h
    rw [build_snoc] at h
    simp only [make_matrix_step, build_col, assign] at h
    rw [List.length_append, List.length_singleton]
    split_ifs at h with hc
    · simp only [Option.some.injEq] at h
      subst h
      subst hc
      refine ⟨Nat.lt_succ_self _, ?_⟩
      rw [List.getElem?_append_right (Nat.le_refl _)]
      simp
    · obtain ⟨h1, h2⟩ := ih t r h
      refine ⟨by omega, ?_⟩
      rw [List.getElem?_append_left h1]
      exact h2

theorem build_indices_complete (n : Nat) (pre : List simplex) :
    (pre.map simplex.vert).Nodup → ∀ t r, (pre[r]?).map simplex.vert = some t →
      (build n pre).indices t = some r := by
  induction pre using List.reverseRecOn with
  | nil => intro _ t r h; simp at h
  | append_singleton pre s ih =>
    intro hnd t r h
    rw [List.map_append, List.nodup_append] at hnd
    obtain ⟨hnd1, _, hdis⟩ := hnd
    rw [build_snoc]
    simp only [make_matrix_step, build_col, assign]
    by_cases hr : r < pre.length
    · rw [List.getElem?_append_left hr] at h
      have hmem : t ∈ pre.map simplex.vert := by
        rw [List.mem_iff_getElem?]
        exact ⟨r, by rw [List.getElem?_map]; exact h⟩
      have hts : t ≠ s.vert := by
        intro e
        exact hdis hmem (by simp [e])
      rw [if_neg hts]
      exact ih hnd1 t r h
    · rw [List.getElem?_append_right (by omega)] at h
      have hr0 : r - pre.length = 0 := by
        by_contra h0
        rw [List.getElem?_eq_none (by simp; omega)] at h
        simp at h
      rw [hr0] at h
      simp only [List.getElem?_cons_zero, Option.map_some', Option.some.injEq] at h
      rw [if_pos h.symm]
      congr 1
      omega

theorem build_column_snoc (n : Nat) (pre : List simplex) (s : simplex) (h : pre.length < n) :
    (build n (pre ++ [s])).m.getD pre.length [] =
      sort_rows (s.vert.elems.filterMap (fun v => (build n pre).indices (s.vert.erase v))) := by
  rw [build_snoc]
  simp only [make_matrix_step, build_col]
  rw [getD_set_self _ _ _ (by rw [build_length]; exact h), build_tail_nil n pre _ (Nat.le_refl _),
    face_loop_eq _ _ _ (fun v hv => hv), List.nil_append]
  congr 1
  apply List.filterMap_congr
  intro v hv
  simp only [assign]
  rw [if_neg (erase_ne_self s.vert v hv)]

theorem build_column_keep (n : Nat) (pre : List simplex) (c : Nat) (hc : c < pre.length) :
    ∀ rest, (build n (pre ++ rest)).m.getD c [] = (build n pre).m.getD c [] := by
  intro rest
  induction rest using List.reverseRecOn with
  | nil => simp
  | append_singleton rest s ih =>
    rw [← List.append_assoc, build_snoc]
    simp only [make_matrix_step, build_col]
    rw [getD_set_ne _ _ _ _ (by rw [List.length_append]; omega)]
    exact ih

theorem build_column (n : Nat) (F : List simplex) (c : Nat) (hc : c < F.length) (hn : c < n) :
    (build n F).m.getD c [] =
      sort_rows (F[c].vert.elems.filterMap
        (fun v => (build n (F.take c)).indices (F[c].vert.erase v))) := by
  have hlen : (F.take c).length = c := by
    rw [List.length_take]
    omega
  have e : F = (F.take c ++ [F[c]]) ++ F.drop (c + 1) := by
    rw [List.append_assoc, List.singleton_append, ← List.drop_eq_getElem_cons hc,
      List.take_append_drop]
  have h1 : (build n F).m.getD c [] = (build n (F.take c ++ [F[c]])).m.getD c [] := by
    conv_lhs => rw [e]
    exact build_column_keep n _ c (by rw [List.length_append, hlen]; simp) _
  rw [h1]
  have h2 := build_column_snoc n (F.take c) F[c] (by rw [hlen]; exact hn)
  rw [hlen] at h2
  exact h2

theorem make_matrix_eq (F : List simplex) : make_matrix F = (build F.length F).m := rfl

theorem make_matrix_length (F : List simplex) : (make_matrix F).length = F.length :=
  build_length _ _

theorem make_matrix_column (F : List simplex) (c : Nat) (hc : c < F.length) :
    (make_matrix F).getD c [] =
      sort_rows (F[c].vert.elems.filterMap
        (fun v => (build F.length (F.take c)).indices (F[c].vert.erase v))) :=
  build_column F.length F c hc hc

theorem make_matrix_getD_of_le (F : List simplex) (c : Nat) (hc : F.length ≤ c) :
    (make_matrix F).getD c [] = [] := by
  rw [List.getD_eq_getElem?_getD, List.getElem?_eq_none (by rw [make_matrix_length]; exact hc)]
  rfl

theorem mem_make_matrix_column (F : List simplex) (c : Nat) (hc : c < F.length) (x : Nat) :
    x ∈ (make_matrix F).getD c [] ↔
      ∃ v ∈ F[c].vert.elems, (build F.length (F.take c)).indices (F[c].vert.erase v) = some x := by
  rw [make_matrix_column F c hc, mem_sort_rows, List.mem_filterMap]

theorem make_matrix_column_ascending (F : List simplex) (c : Nat) :
    ((make_matrix F).getD c []).Pairwise (· < ·) := by
  by_cases hc : c < F.length
  · rw [make_matrix_column F c hc]
    apply sort_rows_ascending
    apply nodup_filterMap_of_injOn
    · exact F[c].vert.asc.imp (fun h => ne_of_lt h)
    · intro v _ w hw b h1 h2
      have e1 := (build_indices_sound _ _ _ _ h1).2
      have e2 := (build_indices_sound _ _ _ _ h2).2
      rw [e1] at e2
      exact erase_injective _ v w hw (Option.some.inj e2)
  · rw [make_matrix_getD_of_le F c (by omega)]
    exact List.Pairwise.nil

theorem make_matrix_ascending (F : List simplex) : ascending (make_matrix F) := by
  intro column hcol
  obtain ⟨c, hc, e⟩ := List.mem_iff_getElem.1 hcol
  have := make_matrix_column_ascending F c
  rw [List.getD_eq_getElem _ _ hc, e] at this
  exact this

theorem make_matrix_upper (F : List simplex) : upper_triangular (make_matrix F) := by
  intro c r hr
  by_cases hc : c < F.length
  · obtain ⟨v, _, h⟩ := (mem_make_matrix_column F c hc r).1 hr
    have := (build_indices_sound _ _ _ _ h).1
    rw [List.length_take] at this
    omega
  · rw [make_matrix_getD_of_le F c (by omega)] at hr
    simp at hr

/-- C5: for a sequence `F` of simplices with pairwise distinct vertex sets,
`make_matrix F` has one column per simplex, and column `c` is the strictly
ascending list of exactly the indices `r < c` such that the vertex set of
`F[r]` is the vertex set of `F[c]` with one vertex removed.  A face that does
not occur before position `c` gives no entry. -/
theorem make_matrix_columns (F : List simplex) (h : (F.map simplex.vert).Nodup) :
    (make_matrix F).length = F.length ∧
    ∀ c (hc : c < F.length),
      ((make_matrix F).getD c []).Pairwise (· < ·) ∧
      ∀ r, r ∈ (make_matrix F).getD c [] ↔
        r < c ∧ ∃ v ∈ F[c].vert.elems, (F[r]?).map simplex.vert = some (F[c].vert.erase v) := by
  refine ⟨make_matrix_length F, fun c hc => ⟨make_matrix_column_ascending F c, fun r => ?_⟩⟩
  rw [mem_make_matrix_column F c hc]
  constructor
  · rintro ⟨v, hv, e⟩
    obtain ⟨h1, h2⟩ := build_indices_sound _ _ _ _ e
    rw [List.length_take] at h1
    have h3 : r < c := by omega
    rw [List.getElem?_take_of_lt h3] at h2
    exact ⟨h3, v, hv, h2⟩
  · rintro ⟨h3, v, hv, e⟩
    refine ⟨v, hv, ?_⟩
    apply build_indices_complete
    · rw [List.map_take]
      exact h.sublist (List.take_sublist _ _)
    · rw [List.getElem?_take_of_lt h3]
      exact e

theorem make_matrix_columns_witness :
    (filtration_edge.map simplex.vert).Nodup ∧
    ((make_matrix filtration_edge).length = filtration_edge.length ∧
    ∀ c (hc : c < filtration_edge.length),
      ((make_matrix filtration_edge).getD c []).Pairwise (· < ·) ∧
      ∀ r, r ∈ (make_matrix filtration_edge).getD c [] ↔
        r < c ∧ ∃ v ∈ filtration_edge[c].vert.elems,
          (filtration_edge[r]?).map simplex.vert = some (filtration_edge[c].vert.erase v)) :=
  ⟨by decide, make_matrix_columns filtration_edge (by decide)⟩

/-- C6: ordering validity.  For every sequence `F` of simplices, every entry
`r` stored in column `c` of `make_matrix F` satisfies `r < c`. -/
theorem make_matrix_upper_triangular (F : List simplex) :
    ∀ c r, r ∈ (make_matrix F).getD c [] → r < c :=
  make_matrix_upper F

theorem make_matrix_upper_triangular_witness :
    1 ∈ (make_matrix filtration_edge).getD 2 [] ∧ 1 < 2 :=
  ⟨by decide, make_matrix_upper_triangular filtration_edge 2 1 (by decide)⟩

/-- C1: injectivity.  Every output of `make_matrix` has strictly ascending
columns; and on every matrix with strictly ascending columns `reduction`
returns a matrix in which any two distinct non-empty columns have different
last entries. -/
theorem reduction_low_injective :
    (∀ F : List simplex, ascending (make_matrix F)) ∧
    ∀ m : matrix, ascending m →
      (∃ fuel r, reduction fuel m = some r) ∧
      ∀ fuel r, reduction fuel m = some r →
        ∀ i j, i < r.length → j < r.length → i ≠ j →
          r.getD i [] ≠ [] → r.getD j [] ≠ [] →
            (r.getD i []).getLast? ≠ (r.getD j []).getLast? := by
  refine ⟨make_matrix_ascending, fun m h => ⟨?_, ?_⟩⟩
  · obtain ⟨r, hr⟩ := reduction_returns m h (enough_fuel m) (lt_enough_fuel m)
    exact ⟨_, r, hr⟩
  · intro fuel r hr
    obtain ⟨inverse_low, hinv⟩ := reduction_inv m h fuel r hr
    exact low_injective_of_sweep_inv hinv

theorem reduction_low_injective_witness :
    ascending [[], [], [], [0, 1], [0, 2], [1, 2], [3, 4, 5]] ∧
    ((∃ fuel r, reduction fuel [[], [], [], [0, 1], [0, 2], [1, 2], [3, 4, 5]] = some r) ∧
      ∀ fuel r, reduction fuel [[], [], [], [0, 1], [0, 2], [1, 2], [3, 4, 5]] = some r →
        ∀ i j, i < r.length → j < r.length → i ≠ j →
          r.getD i [] ≠ [] → r.getD j [] ≠ [] →
            (r.getD i []).getLast? ≠ (r.getD j []).getLast?) :=
  ⟨by decide,
    reduction_low_injective.2 [[], [], [], [0, 1], [0, 2], [1, 2], [3, 4, 5]] (by decide)⟩

/-! ## The order on simplices and `sort` -/

theorem lexicographical_compare_asymm : ∀ a b : List Int,
    lexicographical_compare a b = true → lexicographical_compare b a = false := by
  intro a
  induction a with
  | nil => intro b _; cases b <;> rfl
  | cons x xs ih =>
    intro b h
    cases b with
    | nil => simp [lexicographical_compare] at h
    | cons y ys =>
      simp only [lexicographical_compare] at h ⊢
      split_ifs at h ⊢
      all_goals first | rfl | omega | exact ih ys h

theorem lexicographical_compare_trans : ∀ a b c : List Int,
    lexicographical_compare b a = false → lexicographical_compare c b = false →
      lexicographical_compare c a = false := by
  intro a
  induction a with
  | nil => intro b c _ _; cases c <;> rfl
  | cons x xs ih =>
    intro b c h1 h2
    cases b with
    | nil => simp [lexicographical_compare] at h1
    | cons y ys =>
      cases c with
      | nil => simp [lexicographical_compare] at h2
      | cons z zs =>
        simp only [lexicographical_compare] at h1 h2 ⊢
        split_ifs at h1 h2 ⊢
        all_goals first | rfl | omega | exact ih ys zs h1 h2

theorem lexicographical_compare_connected : ∀ a b : List Int,
    lexicographical_compare a b = false → lexicographical_compare b a = false → a = b := by
  intro a
  induction a with
  | nil =>
    intro b h1 _
    cases b with
    | nil => rfl
    | cons y ys => simp [lexicographical_compare] at h1
  | cons x xs ih =>
    intro b h1 h2
    cases b with
    | nil => simp [lexicographical_compare] at h2
    | cons y ys =>
      simp only [lexicographical_compare] at h1 h2
      split_ifs at h1 h2 with h3 h4
      have e : x = y := by omega
      rw [e, ih ys h1 h2]

theorem simplex_lt_total (a b : simplex) : simplex.lt b a = false ∨ simplex.lt a b = false := by
  by_cases h : simplex.lt b a = false
  · exact Or.inl h
  · right
    simp only [Bool.not_eq_false] at h
    unfold simplex.lt at h ⊢
    rcases lt_trichotomy a.val b.val with h1 | h1 | h1
    · rw [if_neg (not_lt.2 (le_of_lt h1)), if_neg (ne_of_gt h1)] at h
      simp at h
    · rw [if_neg (by rw [h1]; exact lt_irrefl _), if_pos h1.symm] at h
      rw [if_neg (by rw [h1]; exact lt_irrefl _), if_pos h1]
      rcases lt_trichotomy a.dim b.dim with h2 | h2 | h2
      · rw [if_neg (by omega), if_neg (by omega)] at h
        simp at h
      · rw [if_neg (by omega), if_pos h2.symm] at h
        rw [if_neg (by omega), if_pos h2]
        exact lexicographical_compare_asymm _ _ h
      · rw [if_neg (by omega), if_neg (by omega)]
    · rw [if_neg (not_lt.2 (le_of_lt h1)), if_neg (ne_of_gt h1)]

theorem simplex_lt_false_iff (a b : simplex) :
    simplex.lt a b = false ↔
      b.val < a.val ∨ (b.val = a.val ∧ (b.dim < a.dim ∨
        (b.dim = a.dim ∧ lexicographical_compare a.vert.elems b.vert.elems = false))) := by
  unfold simplex.lt
  rcases lt_trichotomy a.val b.val with h1 | h1 | h1
  · rw [if_pos h1]
    constructor
    · intro h; simp at h
    · rintro (h | ⟨h, _⟩)
      · exact absurd h (not_lt.2 (le_of_lt h1))
      · exact absurd h.symm (ne_of_lt h1)
  · rw [if_neg (by rw [h1]; exact lt_irrefl _), if_pos h1]
    rcases lt_trichotomy a.dim b.dim with h2 | h2 | h2
    · rw [if_pos h2]
      constructor
      · intro h; simp at h
      · rintro (h | ⟨_, h | ⟨h, _⟩⟩)
        · exact absurd h (by rw [h1]; exact lt_irrefl _)
        · omega
        · omega
    · rw [if_neg (by omega), if_pos h2]
      constructor
      · intro h
        exact Or.inr ⟨h1.symm, Or.inr ⟨h2.symm, h⟩⟩
      · rintro (h | ⟨_, h | ⟨_, h⟩⟩)
        · exact absurd h (by rw [h1]; exact lt_irrefl _)
        · omega
        · exact h
    · rw [if_neg (by omega), if_neg (by omega)]
      constructor
      · intro _
        exact Or.inr ⟨h1.symm, Or.inl h2⟩
      · intro _; rfl
  · rw [if_neg (not_lt.2 (le_of_lt h1)), if_neg (ne_of_gt h1)]
    constructor
    · intro _; exact Or.inl h1
    · intro _; rfl

theorem simplex_lt_trans (a b c : simplex) (h1 : simplex.lt b a = false)
    (h2 : simplex.lt c b = false) : simplex.lt c a = false := by
  rw [simplex_lt_false_iff] at h1 h2 ⊢
  rcases h1 with h1 | ⟨e1, h1⟩
  · rcases h2 with h2 | ⟨e2, _⟩
    · exact Or.inl (lt_trans h1 h2)
    · exact Or.inl (by rw [e2] at h1; exact h1)
  · rcases h2 with h2 | ⟨e2, h2⟩
    · exact Or.inl (by rw [e1]; exact h2)
    · refine Or.inr ⟨e1.trans e2, ?_⟩
      rcases h1 with h1 | ⟨d1, h1⟩
      · rcases h2 with h2 | ⟨d2, _⟩
        · exact Or.inl (by omega)
        · exact Or.inl (by omega)
      · rcases h2 with h2 | ⟨d2, h2⟩
        · exact Or.inl (by omega)
        · exact Or.inr ⟨by omega, lexicographical_compare_trans _ _ _ h1 h2⟩

theorem simplex_lt_antisymm (a b : simplex) (h1 : simplex.lt b a = false)
    (h2 : simplex.lt a b = false) : a = b := by
  rw [simplex_lt_false_iff] at h1 h2
  have hv : a.val = b.val := by
    rcases h1 with h1 | ⟨e1, _⟩
    · rcases h2 with h2 | ⟨e2, _⟩
      · exact absurd h1 (not_lt.2 (le_of_lt h2))
      · exact e2.symm
    · exact e1
  have h1b : a.dim < b.dim ∨ (a.dim = b.dim ∧
      lexicographical_compare b.vert.elems a.vert.elems = false) := by
    rcases h1 with h1 | ⟨_, h1⟩
    · exact absurd h1 (by rw [hv]; exact lt_irrefl _)
    · exact h1
  have h2b : b.dim < a.dim ∨ (b.dim = a.dim ∧
      lexicographical_compare a.vert.elems b.vert.elems = false) := by
    rcases h2 with h2 | ⟨_, h2⟩
    · exact absurd h2 (by rw [hv]; exact lt_irrefl _)
    · exact h2
  have hd : a.dim = b.dim := by
    rcases h1b with h | ⟨h, _⟩
    · rcases h2b with h3 | ⟨h3, _⟩ <;> omega
    · exact h
  have hl1 : lexicographical_compare b.vert.elems a.vert.elems = false := by
    rcases h1b with h | ⟨_, h⟩
    · omega
    · exact h
  have hl2 : lexicographical_compare a.vert.elems b.vert.elems = false := by
    rcases h2b with h | ⟨_, h⟩
    · omega
    · exact h
  have he := vertices_ext (lexicographical_compare_connected _ _ hl2 hl1)
  cases a
  cases b
  simp only at hv hd he
  subst hv hd he
  rfl

theorem sort_sorted (F : List simplex) :
    (sort F).Sorted (fun a b => simplex.lt b a = false) :=
  haveI : IsTotal simplex (fun a b => simplex.lt b a = false) := ⟨simplex_lt_total⟩
  haveI : IsTrans simplex (fun a b => simplex.lt b a = false) := ⟨simplex_lt_trans⟩
  List.sorted_insertionSort _ F

theorem sort_perm (F : List simplex) : (sort F).Perm F :=
  List.perm_insertionSort _ F

theorem sort_eq_of_perm {F G : List simplex} (h : F.Perm G) : sort F = sort G :=
  haveI : IsAntisymm simplex (fun a b => simplex.lt b a = false) := ⟨simplex_lt_antisymm⟩
  List.eq_of_perm_of_sorted ((sort_perm F).trans (h.trans (sort_perm G).symm))
    (sort_sorted F) (sort_sorted G)

/-- In the sorted sequence the filtration values do not decrease. -/
theorem sort_val_le (F : List simplex) (i j : Nat) (hij : i < j) (hj : j < (sort F).length) :
    ((sort F)[i]).val ≤ ((sort F)[j]).val := by
  have h := List.pairwise_iff_getElem.1 (sort_sorted F) i j (by omega) hj hij
  rw [simplex_lt_false_iff] at h
  rcases h with h | ⟨h, _⟩
  · exact le_of_lt h
  · exact le_of_eq h

/-! ## The loops of `get_intervals` -/

theorem first_loop_succ (m : matrix) (F : List simplex) (k : Nat) :
    first_loop m F (k + 1) = get_intervals_step m F (first_loop m F k) k := by
  unfold first_loop
  rw [List.range_succ, List.foldl_append]
  rfl

theorem getD_replicate_same {α : Type} (n c : Nat) (d : α) : (List.replicate n d).getD c d = d := by
  rw [List.getD_eq_getElem?_getD, List.getElem?_replicate]
  split_ifs <;> rfl

theorem first_inv_zero (m : matrix) (F : List simplex) :
    first_inv m F 0
      { start := List.replicate F.length 0,
        end_ := List.replicate F.length FLT_MAX,
        dim := List.replicate F.length (-1) } := by
  refine ⟨by simp, by simp, by simp, ?_, ?_, ?_, ?_, ?_⟩
  · intro c hc; omega
  · intro c _; exact getD_replicate_same _ _ _
  · intro r _; exact getD_replicate_same _ _ _
  · intro r d hd; omega
  · intro r; exact Or.inl (getD_replicate_same _ _ _)

theorem first_inv_birth {m : matrix} {F : List simplex} {k : Nat} {b : bounds}
    (h : first_inv m F k b) (hk : k < F.length) (hemp : m.getD k [] = []) :
    first_inv m F (k + 1)
      { b with start := b.start.set k (F.getD k default).val,
               dim := b.dim.set k (F.getD k default).dim } := by
  obtain ⟨h1, h2, h3, h4, h5, h6, h7, h8⟩ := h
  have hlast : (m.getD k []).getLast? = none := by rw [hemp]; rfl
  refine ⟨by simp [h1], h2, by simp [h3], ?_, ?_, ?_, ?_, ?_⟩
  · intro c hc hce
    by_cases hck : c = k
    · subst hck
      exact ⟨getD_set_self _ _ _ (by omega), getD_set_self _ _ _ (by omega)⟩
    · simp only
      rw [getD_set_ne _ _ _ _ (Ne.symm hck), getD_set_ne _ _ _ _ (Ne.symm hck)]
      exact h4 c (by omega) hce
  · intro c hc
    have hck : c ≠ k := by
      rintro rfl
      rcases hc with hc | hc
      · omega
      · exact hc hemp
    simp only
    rw [getD_set_ne _ _ _ _ (Ne.symm hck)]
    apply h5
    rcases hc with hc | hc
    · exact Or.inl (by omega)
    · exact Or.inr hc
  · intro r hr
    exact h6 r (fun d hd => hr d (by omega))
  · intro r d hd hdr hmax
    have hdk : d ≠ k := by
      rintro rfl
      rw [hlast] at hdr
      simp at hdr
    exact h7 r d (by omega) hdr (fun d2 a b => hmax d2 a (by omega))
  · intro r
    rcases h8 r with a | ⟨d, hd, a⟩
    · exact Or.inl a
    · exact Or.inr ⟨d, by omega, a⟩

theorem first_inv_death {m : matrix} {F : List simplex} {k : Nat} {b : bounds}
    (h : first_inv m F k b) {r0 : Nat} (hr0 : r0 < F.length)
    (hlast : (m.getD k []).getLast? = some r0) :
    first_inv m F (k + 1) { b with end_ := b.end_.set r0 (F.getD k default).val } := by
  obtain ⟨h1, h2, h3, h4, h5, h6, h7, h8⟩ := h
  have hne : m.getD k [] ≠ [] := by
    intro e
    rw [e] at hlast
    simp at hlast
  refine ⟨h1, by simp [h2], h3, ?_, ?_, ?_, ?_, ?_⟩
  · intro c hc hce
    have hck : c ≠ k := fun e => hne (e ▸ hce)
    exact h4 c (by omega) hce
  · intro c hc
    apply h5
    rcases hc with hc | hc
    · exact Or.inl (by omega)
    · exact Or.inr hc
  · intro r hr
    have hrr : r0 ≠ r := by
      rintro rfl
      exact hr k (Nat.lt_succ_self _) hlast
    simp only
    rw [getD_set_ne _ _ _ _ hrr]
    exact h6 r (fun d hd => hr d (by omega))
  · intro r d hd hdr hmax
    by_cases hdk : d = k
    · subst hdk
      rw [hlast] at hdr
      simp only [Option.some.injEq] at hdr
      subst hdr
      exact getD_set_self _ _ _ (by omega)
    · have hrr : r0 ≠ r := by
        rintro rfl
        exact hmax k (by omega) (Nat.lt_succ_self _) hlast
      simp only
      rw [getD_set_ne _ _ _ _ hrr]
      exact h7 r d (by omega) hdr (fun d2 a b => hmax d2 a (by omega))
  · intro r
    by_cases hrr : r0 = r
    · subst hrr
      exact Or.inr ⟨k, Nat.lt_succ_self _, hlast, getD_set_self _ _ _ (by omega)⟩
    · simp only
      rw [getD_set_ne _ _ _ _ hrr]
      rcases h8 r with a | ⟨d, hd, a⟩
      · exact Or.inl a
      · exact Or.inr ⟨d, by omega, a⟩

theorem first_loop_spec (m : matrix) (F : List simplex)
    (hvalid : ∀ c r, c < F.length → (m.getD c []).getLast? = some r → r < F.length) :
    ∀ k, k ≤ F.length → ∃ b, first_loop m F k = some b ∧ first_inv m F k b := by
  intro k
  induction k with
  | zero => intro _; exact ⟨_, rfl, first_inv_zero m F⟩
  | succ k ih =>
    intro hk
    obtain ⟨b, e, hb⟩ := ih (by omega)
    have hFk : F.get? k = some (F.getD k default) := by
      rw [List.get?_eq_getElem?, List.getD_eq_getElem?_getD,
        List.getElem?_eq_getElem (by omega : k < F.length)]
      rfl
    rw [first_loop_succ, e]
    cases hlast : (m.getD k []).getLast? with
    | none =>
      refine ⟨_, ?_, first_inv_birth hb (by omega) (List.getLast?_eq_none_iff.1 hlast)⟩
      simp only [get_intervals_step, hlast, hFk]
    | some r0 =>
      have hr0 := hvalid k r0 (by omega) hlast
      refine ⟨_, ?_, first_inv_death hb hr0 hlast⟩
      simp only [get_intervals_step, hlast, hFk, if_pos hr0]

theorem multiset_insert_perm (i : interval) : ∀ l, (multiset_insert i l).Perm (i :: l) := by
  intro l
  induction l with
  | nil => exact List.Perm.refl _
  | cons y ys ih =>
    unfold multiset_insert
    split_ifs
    · exact List.Perm.refl _
    · exact (List.Perm.cons y ih).trans (List.Perm.swap i y ys)

theorem emit_loop_perm (b : bounds) : ∀ k,
    ((List.range k).foldl (emit_step b) []).Perm
      (((List.range k).filter (fun c => decide (0 ≤ b.dim.getD c (-1)))).map
        (fun c => ({ start := b.start.getD c 0, end_ := b.end_.getD c FLT_MAX,
                     dim := b.dim.getD c (-1) } : interval))) := by
  intro k
  induction k with
  | zero => exact List.Perm.refl _
  | succ k ih =>
    rw [List.range_succ, List.foldl_append, List.filter_append, List.map_append]
    simp only [List.foldl_cons, List.foldl_nil]
    rw [emit_step]
    by_cases hd : 0 ≤ b.dim.getD k (-1)
    · rw [if_pos hd]
      have e : List.filter (fun c => decide (0 ≤ b.dim.getD c (-1))) [k] = [k] := by
        simp only [List.filter, decide_eq_true hd]
      rw [e]
      refine (multiset_insert_perm _ _).trans ?_
      refine (List.Perm.cons _ ih).trans ?_
      exact (List.perm_append_singleton _ _).symm
    · rw [if_neg hd]
      have e : List.filter (fun c => decide (0 ≤ b.dim.getD c (-1))) [k] = [] := by
        simp only [List.filter, decide_eq_false hd]
      rw [e, List.map_nil, List.append_nil]
      exact ih

/-! ## What `get_intervals` returns -/

theorem getD_mem {α : Type} (d : α) (l : List α) (c : Nat) (hc : c < l.length) :
    l.getD c d ∈ l := by
  rw [List.getD_eq_getElem _ _ hc]
  exact List.getElem_mem hc

/-- The intervals returned by `get_intervals`, up to their order: one per empty
column whose simplex has a non-negative dimension; `e` is the content of the
array `end` after the first loop. -/
theorem get_intervals_births (m : matrix) (F : List simplex) (hlen : F.length = m.length)
    (hvalid : ∀ c r, c < F.length → (m.getD c []).getLast? = some r → r < F.length) :
    ∃ (res : List interval) (e : Nat → ℚ), get_intervals m F = some res ∧
      (∀ r, (∀ d, d < F.length → (m.getD d []).getLast? ≠ some r) → e r = FLT_MAX) ∧
      (∀ r d, d < F.length → (m.getD d []).getLast? = some r →
        (∀ d2, d < d2 → d2 < F.length → (m.getD d2 []).getLast? ≠ some r) →
          e r = (F.getD d default).val) ∧
      (∀ r, e r = FLT_MAX ∨
        ∃ d, d < F.length ∧ (m.getD d []).getLast? = some r ∧ e r = (F.getD d default).val) ∧
      res.Perm (((List.range F.length).filter
          (fun c => decide (m.getD c [] = [] ∧ 0 ≤ (F.getD c default).dim))).map
        (fun c => ({ start := (F.getD c default).val, end_ := e c,
                     dim := (F.getD c default).dim } : interval))) := by
  obtain ⟨b, hb, h1, h2, h3, h4, h5, h6, h7, h8⟩ :=
    first_loop_spec m F hvalid F.length (Nat.le_refl _)
  refine ⟨(List.range F.length).foldl (emit_step b) [], fun r => b.end_.getD r FLT_MAX,
    ?_, h6, h7, h8, ?_⟩
  · unfold first_loop at hb
    simp only [get_intervals, if_pos hlen, hb, Option.map_some']
  · have hdimc : ∀ c, b.dim.getD c (-1) =
        if m.getD c [] = [] ∧ c < F.length then (F.getD c default).dim else -1 := by
      intro c
      by_cases hc : m.getD c [] = [] ∧ c < F.length
      · rw [if_pos hc]
        exact (h4 c hc.2 hc.1).2
      · rw [if_neg hc]
        apply h5
        by_cases h0 : m.getD c [] = []
        · exact Or.inl (by
            by_contra h9
            exact hc ⟨h0, by omega⟩)
        · exact Or.inr h0
    have e1 : (List.range F.length).filter (fun c => decide (0 ≤ b.dim.getD c (-1))) =
        (List.range F.length).filter
          (fun c => decide (m.getD c [] = [] ∧ 0 ≤ (F.getD c default).dim)) := by
      apply List.filter_congr
      intro c hc
      have hc2 := List.mem_range.1 hc
      rw [hdimc c]
      by_cases h0 : m.getD c [] = []
      · rw [if_pos ⟨h0, hc2⟩]
        simp only [h0, true_and]
      · rw [if_neg (fun h9 => h0 h9.1), decide_eq_false (by omega : ¬ (0 : Int) ≤ -1),
          decide_eq_false (fun h9 => h0 h9.1)]
    have e2 := emit_loop_perm b F.length
    rw [e1] at e2
    refine e2.trans (List.Perm.of_eq ?_)
    apply List.map_congr_left
    intro c hc
    obtain ⟨hc1, hc2⟩ := List.mem_filter.1 hc
    have hc3 := List.mem_range.1 hc1
    simp only [decide_eq_true_eq] at hc2
    obtain ⟨a1, a2⟩ := h4 c hc3 hc2.1
    rw [a1, a2]

theorem count_empty_columns (m : matrix) :
    ((List.range m.length).filter (fun c => decide (m.getD c [] = []))).length =
      m.countP (fun column => decide (column = [])) := by
  rw [← List.countP_eq_length_filter]
  conv_rhs => rw [← range_map_getD [] m]
  rw [List.countP_map]
  rfl

/-- C8: conservation.  When `m` and `F` have the same length, every simplex
of `F` has dimension at least 0 and the last entry of every non-empty column
is a valid index, `get_intervals m F` returns as many intervals, counted with
multiplicity, as `m` has empty columns. -/
theorem get_intervals_count (m : matrix) (F : List simplex) (hlen : F.length = m.length)
    (hdim : ∀ s ∈ F, 0 ≤ s.dim)
    (hvalid : ∀ c r, c < m.length → (m.getD c []).getLast? = some r → r < F.length) :
    ∃ res, get_intervals m F = some res ∧
      res.length = m.countP (fun column => decide (column = [])) := by
  obtain ⟨res, e, h1, _, _, _, h5⟩ :=
    get_intervals_births m F hlen (fun c r hc => hvalid c r (by omega))
  refine ⟨res, h1, ?_⟩
  rw [h5.length_eq, List.length_map, ← count_empty_columns, hlen]
  congr 1
  apply List.filter_congr
  intro c hc
  have hc2 := List.mem_range.1 hc
  have := hdim _ (getD_mem default F c (by omega))
  simp only [this, and_true]

theorem get_intervals_count_witness :
    filtration_edge.length = ([[], [], [0, 1]] : matrix).length ∧
    (∀ s ∈ filtration_edge, 0 ≤ s.dim) ∧
    (∀ c r, c < ([[], [], [0, 1]] : matrix).length →
      (([[], [], [0, 1]] : matrix).getD c []).getLast? = some r → r < filtration_edge.length) ∧
    ∃ res, get_intervals [[], [], [0, 1]] filtration_edge = some res ∧
      res.length = ([[], [], [0, 1]] : matrix).countP (fun column => decide (column = [])) :=
  have h1 : filtration_edge.length = ([[], [], [0, 1]] : matrix).length := by decide
  have h2 : ∀ s ∈ filtration_edge, 0 ≤ s.dim := by decide
  have h3 : ∀ c r, c < ([[], [], [0, 1]] : matrix).length →
      (([[], [], [0, 1]] : matrix).getD c []).getLast? = some r → r < filtration_edge.length := by
    intro c r hc
    have hc3 : c < 3 := hc
    interval_cases c
    · intro h; simp at h
    · intro h; simp at h
    · intro h
      simp only [List.getD_eq_getElem?_getD] at h
      simp at h
      subst h
      decide
  ⟨h1, h2, h3, get_intervals_count [[], [], [0, 1]] filtration_edge h1 h2 h3⟩

/-- C10: when the non-empty columns of `m` have pairwise distinct last entries
that are valid indices, `F` has the length of `m` and all its dimensions are
at least 0, `get_intervals m F` is exactly the multiset that contains, for
each empty column `c`, one interval with the dimension and the value of `F[c]`
and with end `e c`, where `e c` is the value of `F[d]` if some column `d` has
last entry `c` and is `FLT_MAX` (unbounded) otherwise. -/
theorem get_intervals_exact (m : matrix) (F : List simplex) (hlen : F.length = m.length)
    (hinj : low_injective m)
    (hvalid : ∀ c r, c < m.length → (m.getD c []).getLast? = some r → r < F.length)
    (hdim : ∀ s ∈ F, 0 ≤ s.dim) :
    ∃ (res : List interval) (e : Nat → ℚ), get_intervals m F = some res ∧
      (∀ c d, d < m.length → (m.getD d []).getLast? = some c → e c = (F.getD d default).val) ∧
      (∀ c, (∀ d, d < m.length → (m.getD d []).getLast? ≠ some c) → e c = FLT_MAX) ∧
      (↑res : Multiset interval) =
        ↑(((List.range m.length).filter (fun c => decide (m.getD c [] = []))).map
          (fun c => ({ start := (F.getD c default).val, end_ := e c,
                       dim := (F.getD c default).dim } : interval))) := by
  obtain ⟨res, e, h1, h2, h3, _, h5⟩ :=
    get_intervals_births m F hlen (fun c r hc => hvalid c r (by omega))
  refine ⟨res, e, h1, ?_, ?_, ?_⟩
  · intro c d hd hdc
    apply h3 c d (by omega) hdc
    intro d2 hlt hd2 hd2c
    have n1 : m.getD d [] ≠ [] := by
      intro h0
      rw [h0] at hdc
      simp at hdc
    have n2 : m.getD d2 [] ≠ [] := by
      intro h0
      rw [h0] at hd2c
      simp at hd2c
    exact hinj d d2 hd (by omega) (by omega) n1 n2 (by
      unfold low
      rw [hdc, hd2c])
  · intro c hc
    exact h2 c (fun d hd => hc d (by omega))
  · rw [Multiset.coe_eq_coe]
    refine h5.trans (List.Perm.of_eq ?_)
    rw [hlen]
    congr 1
    apply List.filter_congr
    intro c hc
    have hc2 := List.mem_range.1 hc
    have := hdim _ (getD_mem default F c (by omega))
    simp only [this, and_true]

theorem last_lt_of_bounded (m : matrix) (n : Nat)
    (h : ∀ c, c < m.length → ∀ r ∈ m.getD c [], r < n) :
    ∀ c r, c < m.length → (m.getD c []).getLast? = some r → r < n :=
  fun c r hc hr => h c hc r (List.mem_of_getLast?_eq_some hr)

theorem get_intervals_exact_witness :
    sorted_triangle.length = reduced_triangle.length ∧ low_injective reduced_triangle ∧
    (∀ c r, c < reduced_triangle.length → (reduced_triangle.getD c []).getLast? = some r →
      r < sorted_triangle.length) ∧
    (∀ s ∈ sorted_triangle, 0 ≤ s.dim) ∧
    ∃ (res : List interval) (e : Nat → ℚ), get_intervals reduced_triangle sorted_triangle = some res ∧
      (∀ c d, d < reduced_triangle.length → (reduced_triangle.getD d []).getLast? = some c →
        e c = (sorted_triangle.getD d default).val) ∧
      (∀ c, (∀ d, d < reduced_triangle.length → (reduced_triangle.getD d []).getLast? ≠ some c) →
        e c = FLT_MAX) ∧
      (↑res : Multiset interval) =
        ↑(((List.range reduced_triangle.length).filter
            (fun c => decide (reduced_triangle.getD c [] = []))).map
          (fun c => ({ start := (sorted_triangle.getD c default).val, end_ := e c,
                       dim := (sorted_triangle.getD c default).dim } : interval))) :=
  have h1 : sorted_triangle.length = reduced_triangle.length := by decide
  have h2 : low_injective reduced_triangle := by decide
  have h3 : ∀ c r, c < reduced_triangle.length → (reduced_triangle.getD c []).getLast? = some r →
      r < sorted_triangle.length := last_lt_of_bounded reduced_triangle _ (by decide)
  have h4 : ∀ s ∈ sorted_triangle, 0 ≤ s.dim := by decide
  ⟨h1, h2, h3, h4, get_intervals_exact reduced_triangle sorted_triangle h1 h2 h3 h4⟩

/-! ## The pipeline of `main` -/

theorem compute_intervals_eq (fuel : Nat) (input : List simplex) (res : List interval) :
    compute_intervals fuel input = some res ↔
      ∃ r, reduction fuel (make_matrix (sort input)) = some r ∧
        get_intervals r (sort input) = some res := by
  unfold compute_intervals
  cases h : reduction fuel (make_matrix (sort input)) with
  | none => simp [h]
  | some r => simp [h]

theorem reduction_shape (m : matrix) (h : ascending m) (hu : upper_triangular m) (fuel : Nat)
    (r : matrix) (hr : reduction fuel m = some r) :
    r.length = m.length ∧ ascending r ∧ upper_triangular r := by
  obtain ⟨inverse_low, h1, h2, _, _, _, _, h7⟩ := reduction_inv m h fuel r hr
  refine ⟨h1, h2, ?_⟩
  intro c x hx
  obtain ⟨c', hc', hx'⟩ := h7 c x hx
  have := hu c' x hx'
  omega

theorem last_lt_of_upper (r : matrix) (hu : upper_triangular r) (c x : Nat)
    (h : (r.getD c []).getLast? = some x) : x < c :=
  hu c x (List.mem_of_getLast?_eq_some h)

/-- C9: interval validity.  For every input, the pipeline sort, `make_matrix`,
`reduction`, `get_intervals` returns, and every interval it returns either has
the unbounded end `FLT_MAX` or has `start ≤ end`. -/
theorem compute_intervals_valid (input : List simplex) :
    (∃ fuel res, compute_intervals fuel input = some res) ∧
    ∀ fuel res, compute_intervals fuel input = some res →
      ∀ i ∈ res, i.end_ = FLT_MAX ∨ i.start ≤ i.end_ := by
  have hasc := make_matrix_ascending (sort input)
  have hup := make_matrix_upper (sort input)
  have key : ∀ fuel r, reduction fuel (make_matrix (sort input)) = some r →
      ∃ (res : List interval), get_intervals r (sort input) = some res ∧
        ∀ i ∈ res, i.end_ = FLT_MAX ∨ i.start ≤ i.end_ := by
    intro fuel r hr
    obtain ⟨s1, _, s3⟩ := reduction_shape _ hasc hup fuel r hr
    have hlen : (sort input).length = r.length := by
      rw [s1, make_matrix_length]
    obtain ⟨res, e, h1, _, _, h4, h5⟩ := get_intervals_births r (sort input) hlen
      (fun c x hc hx => by
        have := last_lt_of_upper r s3 c x hx
        omega)
    refine ⟨res, h1, ?_⟩
    intro i hi
    obtain ⟨c, hc, rfl⟩ := List.mem_map.1 (h5.mem_iff.1 hi)
    have hc2 := List.mem_range.1 (List.mem_filter.1 hc).1
    rcases h4 c with a | ⟨d, hd, hdc, a⟩
    · exact Or.inl a
    · right
      have hcd := last_lt_of_upper r s3 d c hdc
      simp only
      rw [a, List.getD_eq_getElem _ _ hc2, List.getD_eq_getElem _ _ hd]
      exact sort_val_le input c d hcd hd
  refine ⟨?_, ?_⟩
  · obtain ⟨r, hr⟩ := reduction_returns _ hasc (enough_fuel _) (lt_enough_fuel _)
    obtain ⟨res, h1, _⟩ := key _ r hr
    exact ⟨_, res, (compute_intervals_eq _ _ _).2 ⟨r, hr, h1⟩⟩
  · intro fuel res h
    obtain ⟨r, hr, h1⟩ := (compute_intervals_eq _ _ _).1 h
    obtain ⟨res2, h2, h3⟩ := key fuel r hr
    rw [h1] at h2
    rw [Option.some.inj h2]
    exact h3

theorem compute_intervals_valid_witness :
    compute_intervals 2 scenario_A =
      some [{ start := 0, end_ := 1, dim := 0 }, { start := 0, end_ := 1, dim := 0 },
        { start := 0, end_ := FLT_MAX, dim := 0 }, { start := 1, end_ := 2, dim := 1 }] ∧
    ∀ i ∈ [({ start := 0, end_ := 1, dim := 0 } : interval), { start := 0, end_ := 1, dim := 0 },
        { start := 0, end_ := FLT_MAX, dim := 0 }, { start := 1, end_ := 2, dim := 1 }],
      i.end_ = FLT_MAX ∨ i.start ≤ i.end_ :=
  ⟨by decide, (compute_intervals_valid scenario_A).2 2 _ (by decide)⟩

/-! ## Inputs made of vertices only -/

theorem reduction_loop_all_nil (m : matrix) (h : ∀ c, m.getD c [] = []) (fuel : Nat) :
    ∀ k, reduction_loop fuel m k = some (m, fun _ => none) := by
  intro k
  induction k with
  | zero => rfl
  | succ k ih =>
    rw [reduction_loop_succ, ih]
    have : (m.getD k []).length = 0 := by rw [h k]; rfl
    simp only [reduction_step, if_pos this]

theorem reduction_all_nil (m : matrix) (h : ∀ c, m.getD c [] = []) (fuel : Nat) :
    reduction fuel m = some m := by
  simp [reduction, reduction_loop_all_nil m h fuel]

theorem make_matrix_vertices (F : List simplex) (h : ∀ s ∈ F, s.vert.elems.length = 1) :
    ∀ c, (make_matrix F).getD c [] = [] := by
  intro c
  by_cases hc : c < F.length
  · apply List.eq_nil_iff_forall_not_mem.2
    intro x hx
    obtain ⟨v, hv, e⟩ := (mem_make_matrix_column F c hc x).1 hx
    obtain ⟨h1, h2⟩ := build_indices_sound _ _ _ _ e
    rw [List.length_take] at h1
    rw [List.getElem?_take_of_lt (by omega), List.getElem?_eq_getElem (by omega)] at h2
    simp only [Option.map_some', Option.some.injEq] at h2
    have l1 := h _ (List.getElem_mem (by omega : x < F.length))
    have l2 := h _ (List.getElem_mem hc)
    have l3 : (F[c].vert.erase v).elems.length = F[c].vert.elems.length - 1 :=
      List.length_erase_of_mem hv
    rw [h2] at l1
    omega
  · exact make_matrix_getD_of_le F c (by omega)

/-- C4: for an input made only of dimension-0 simplices, each with a
one-element vertex set, the pipeline returns, whatever the fuel, exactly one
interval per input simplex: dimension 0, start the filtration value of the
simplex, end unbounded. -/
theorem compute_intervals_vertices (input : List simplex)
    (h : ∀ s ∈ input, s.dim = 0 ∧ s.vert.elems.length = 1) (fuel : Nat) :
    ∃ res, compute_intervals fuel input = some res ∧
      (↑res : Multiset interval) =
        ↑(input.map (fun s => ({ start := s.val, end_ := FLT_MAX, dim := 0 } : interval))) := by
  have hs : ∀ s ∈ sort input, s.dim = 0 ∧ s.vert.elems.length = 1 :=
    fun s hs => h s ((sort_perm input).mem_iff.1 hs)
  have hnil := make_matrix_vertices (sort input) (fun s hs0 => (hs s hs0).2)
  have hred := reduction_all_nil _ hnil fuel
  have hlast : ∀ d r, ((make_matrix (sort input)).getD d []).getLast? ≠ some r := by
    intro d r
    rw [hnil d]
    simp
  obtain ⟨res, e, h1, h2, _, _, h5⟩ := get_intervals_births (make_matrix (sort input)) (sort input)
    (make_matrix_length _).symm (fun c r _ hr => absurd hr (hlast c r))
  refine ⟨res, (compute_intervals_eq _ _ _).2 ⟨_, hred, h1⟩, ?_⟩
  rw [Multiset.coe_eq_coe]
  refine h5.trans ?_
  have e1 : (List.range (sort input).length).filter
      (fun c => decide ((make_matrix (sort input)).getD c [] = [] ∧
        0 ≤ ((sort input).getD c default).dim)) = List.range (sort input).length := by
    apply List.filter_eq_self.2
    intro c hc
    have hc2 := List.mem_range.1 hc
    have := (hs _ (getD_mem default (sort input) c hc2)).1
    simp only [decide_eq_true_eq]
    exact ⟨hnil c, by omega⟩
  have e2 : (List.range (sort input).length).map
      (fun c => ({ start := ((sort input).getD c default).val, end_ := e c,
                   dim := ((sort input).getD c default).dim } : interval)) =
      (sort input).map (fun s => ({ start := s.val, end_ := FLT_MAX, dim := 0 } : interval)) := by
    conv_rhs => rw [← range_map_getD default (sort input)]
    rw [List.map_map]
    apply List.map_congr_left
    intro c hc
    have hc2 := List.mem_range.1 hc
    have := (hs _ (getD_mem default (sort input) c hc2)).1
    simp only [Function.comp]
    rw [h2 c (fun d _ => hlast d c), this]
  rw [e1, e2]
  exact (sort_perm input).map _

theorem compute_intervals_vertices_witness :
    (∀ s ∈ scenario_B, s.dim = 0 ∧ s.vert.elems.length = 1) ∧
    (∀ s ∈ scenario_C, s.dim = 0 ∧ s.vert.elems.length = 1) ∧
    (∀ fuel, compute_intervals fuel scenario_B =
      some [{ start := 0, end_ := FLT_MAX, dim := 0 }, { start := 0, end_ := FLT_MAX, dim := 0 }]) ∧
    (∀ fuel, compute_intervals fuel scenario_C =
      some [{ start := 1 / 2, end_ := FLT_MAX, dim := 0 }]) := by
  have hB : ∀ s ∈ scenario_B, s.dim = 0 ∧ s.vert.elems.length = 1 := by
    intro s hs
    simp only [scenario_B, List.mem_cons, List.mem_singleton, List.not_mem_nil, or_false] at hs
    rcases hs with rfl | rfl <;> exact ⟨rfl, rfl⟩
  have hC : ∀ s ∈ scenario_C, s.dim = 0 ∧ s.vert.elems.length = 1 := by
    intro s hs
    simp only [scenario_C, List.mem_singleton] at hs
    subst hs
    exact ⟨rfl, rfl⟩
  refine ⟨hB, hC, ?_, ?_⟩
  · intro fuel
    obtain ⟨res, h1, h2⟩ := compute_intervals_vertices scenario_B hB fuel
    rw [h1]
    have h3 : res.Perm (List.replicate 2 { start := 0, end_ := FLT_MAX, dim := 0 }) :=
      Multiset.coe_eq_coe.1 h2
    rw [List.perm_replicate.1 h3]
    rfl
  · intro fuel
    obtain ⟨res, h1, h2⟩ := compute_intervals_vertices scenario_C hC fuel
    rw [h1]
    have h3 : res.Perm [{ start := 1 / 2, end_ := FLT_MAX, dim := 0 }] :=
      Multiset.coe_eq_coe.1 h2
    rw [List.perm_singleton.1 h3]

/-! ## Scenario A -/

theorem sort_scenario_A : sort scenario_A = sorted_triangle := by
  decide

theorem compute_triangle (fuel : Nat) :
    (match reduction (fuel + 2) (make_matrix sorted_triangle) with
      | none => none
      | some m => get_intervals m sorted_triangle) =
      some [{ start := 0, end_ := 1, dim := 0 }, { start := 0, end_ := 1, dim := 0 },
        { start := 0, end_ := FLT_MAX, dim := 0 }, { start := 1, end_ := 2, dim := 1 }] := by
  rfl

/-- C3: end-to-end scenario A.  Given in any order, the three vertices at
time 0, the three edges at time 1 and the triangle at time 2 make the pipeline
return the intervals (dim 0, 0, 1), (dim 0, 0, 1), (dim 0, 0, unbounded) and
(dim 1, 1, 2), listed here in the iteration order of the multiset; the inner
loop of `reduction` runs at most twice on a column. -/
theorem scenario_A_intervals (input : List simplex) (h : input.Perm scenario_A) (fuel : Nat) :
    compute_intervals (fuel + 2) input =
      some [{ start := 0, end_ := 1, dim := 0 }, { start := 0, end_ := 1, dim := 0 },
        { start := 0, end_ := FLT_MAX, dim := 0 }, { start := 1, end_ := 2, dim := 1 }] := by
  unfold compute_intervals
  simp only []
  rw [sort_eq_of_perm h, sort_scenario_A]
  exact compute_triangle fuel

theorem scenario_A_intervals_witness :
    scenario_A.reverse.Perm scenario_A ∧
    compute_intervals 2 scenario_A.reverse =
      some [{ start := 0, end_ := 1, dim := 0 }, { start := 0, end_ := 1, dim := 0 },
        { start := 0, end_ := FLT_MAX, dim := 0 }, { start := 1, end_ := 2, dim := 1 }] :=
  ⟨List.reverse_perm _, scenario_A_intervals scenario_A.reverse (List.reverse_perm _) 0⟩

/-! ## `add` and the symmetric difference -/

theorem mem_symmetric_difference (a b : List Nat) (x : Nat) :
    x ∈ symmetric_difference a b ↔ (x ∈ a ∧ x ∉ b) ∨ (x ∉ a ∧ x ∈ b) := by
  unfold symmetric_difference
  rw [mem_sort_rows, List.mem_append, List.mem_filter, List.mem_filter]
  simp only [decide_eq_true_eq]
  constructor
  · rintro (⟨h1, h2⟩ | ⟨h1, h2⟩)
    · exact Or.inl ⟨h1, h2⟩
    · exact Or.inr ⟨h2, h1⟩
  · rintro (⟨h1, h2⟩ | ⟨h1, h2⟩)
    · exact Or.inl ⟨h1, h2⟩
    · exact Or.inr ⟨h2, h1⟩

theorem symmetric_difference_ascending (a b : List Nat) (ha : a.Pairwise (· < ·))
    (hb : b.Pairwise (· < ·)) : (symmetric_difference a b).Pairwise (· < ·) := by
  unfold symmetric_difference
  apply sort_rows_ascending
  have na : a.Nodup := ha.imp (fun h => Nat.ne_of_lt h)
  have nb : b.Nodup := hb.imp (fun h => Nat.ne_of_lt h)
  rw [List.nodup_append]
  refine ⟨na.sublist (List.filter_sublist _), nb.sublist (List.filter_sublist _), ?_⟩
  intro x h1 h2
  rw [List.mem_filter] at h1 h2
  simp only [decide_eq_true_eq] at h1 h2
  exact h1.2 h2.1

theorem eq_of_ascending_of_mem_iff {l1 l2 : List Nat} (h1 : l1.Pairwise (· < ·))
    (h2 : l2.Pairwise (· < ·)) (h : ∀ x, x ∈ l1 ↔ x ∈ l2) : l1 = l2 := by
  have n1 : l1.Nodup := h1.imp (fun h => Nat.ne_of_lt h)
  have n2 : l2.Nodup := h2.imp (fun h => Nat.ne_of_lt h)
  exact List.eq_of_perm_of_sorted ((List.perm_ext_iff_of_nodup n1 n2).2 h) h1 h2

/-- An entry present in exactly one of the two sequences is kept by `add` as
long as the other sequence still has an entry that is not smaller. -/
theorem add_complete : ∀ (self other : List Nat),
    self.Pairwise (· < ·) → other.Pairwise (· < ·) → ∀ x,
      ((x ∈ self ∧ x ∉ other ∧ ∃ y ∈ other, x ≤ y) ∨
        (x ∈ other ∧ x ∉ self ∧ ∃ y ∈ self, x ≤ y)) → x ∈ add self other := by
  intro self
  induction self with
  | nil =>
    intro other _ _ x h
    rcases h with ⟨h1, _⟩ | ⟨_, _, y, hy, _⟩
    · simp at h1
    · simp at hy
  | cons a as ih =>
    intro other
    induction other with
    | nil =>
      intro _ _ x h
      rcases h with ⟨_, _, y, hy, _⟩ | ⟨h1, _⟩
      · simp at hy
      · simp at h1
    | cons b bs ih2 =>
      intro hs ho x h
      have hs1 := hs
      have ho1 := ho
      rw [List.pairwise_cons] at hs1 ho1
      rw [add_cons_cons]
      split_ifs with h1 h2
      · subst h1
        apply ih bs hs1.2 ho1.2
        rcases h with ⟨p1, p2, y, hy, hxy⟩ | ⟨p1, p2, y, hy, hxy⟩
        · left
          have hxa : x ≠ a := fun e => p2 (e ▸ List.mem_cons_self _ _)
          have hx : x ∈ as := by
            rcases List.mem_cons.1 p1 with e | e
            · exact absurd e hxa
            · exact e
          have hax := hs1.1 x hx
          refine ⟨hx, fun e => p2 (List.mem_cons_of_mem _ e), y, ?_, hxy⟩
          rcases List.mem_cons.1 hy with e | e
          · omega
          · exact e
        · right
          have hxa : x ≠ a := fun e => p2 (e ▸ List.mem_cons_self _ _)
          have hx : x ∈ bs := by
            rcases List.mem_cons.1 p1 with e | e
            · exact absurd e hxa
            · exact e
          have hax := ho1.1 x hx
          refine ⟨hx, fun e => p2 (List.mem_cons_of_mem _ e), y, ?_, hxy⟩
          rcases List.mem_cons.1 hy with e | e
          · omega
          · exact e
      · rcases h with ⟨p1, p2, y, hy, hxy⟩ | ⟨p1, p2, y, hy, hxy⟩
        · rcases List.mem_cons.1 p1 with e | e
          · rw [e]
            exact List.mem_cons_self _ _
          · exact List.mem_cons_of_mem _
              (ih (b :: bs) hs1.2 ho x (Or.inl ⟨e, p2, y, hy, hxy⟩))
        · have hbx : b ≤ x := by
            rcases List.mem_cons.1 p1 with e | e
            · omega
            · exact Nat.le_of_lt (ho1.1 x e)
          have hy2 : y ∈ as := by
            rcases List.mem_cons.1 hy with e | e
            · omega
            · exact e
          exact List.mem_cons_of_mem _ (ih (b :: bs) hs1.2 ho x
            (Or.inr ⟨p1, fun e => p2 (List.mem_cons_of_mem _ e), y, hy2, hxy⟩))
      · have hba : b < a := by omega
        rcases h with ⟨p1, p2, y, hy, hxy⟩ | ⟨p1, p2, y, hy, hxy⟩
        · have hax : a ≤ x := by
            rcases List.mem_cons.1 p1 with e | e
            · omega
            · exact Nat.le_of_lt (hs1.1 x e)
          have hy2 : y ∈ bs := by
            rcases List.mem_cons.1 hy with e | e
            · omega
            · exact e
          exact List.mem_cons_of_mem _ (ih2 hs ho1.2 x
            (Or.inl ⟨p1, fun e => p2 (List.mem_cons_of_mem _ e), y, hy2, hxy⟩))
        · rcases List.mem_cons.1 p1 with e | e
          · rw [e]
            exact List.mem_cons_self _ _
          · exact List.mem_cons_of_mem _ (ih2 hs ho1.2 x (Or.inr ⟨e, p2, y, hy, hxy⟩))

/-- C19: for two strictly ascending sequences with the same last element,
`add self other` is the strictly ascending symmetric difference of the two;
and `add` with an empty `other` leaves the empty list whatever `self` was. -/
theorem add_same_last (self other : List Nat) (hs : self.Pairwise (· < ·))
    (ho : other.Pairwise (· < ·)) (L : Nat) (h1 : self.getLast? = some L)
    (h2 : other.getLast? = some L) :
    add self other = symmetric_difference self other ∧
    (add self other).Pairwise (· < ·) ∧
    (∀ x, x ∈ add self other ↔ (x ∈ self ∧ x ∉ other) ∨ (x ∉ self ∧ x ∈ other)) ∧
    ∀ anything : List Nat, add anything [] = [] := by
  have m1 := List.mem_of_getLast?_eq_some h1
  have m2 := List.mem_of_getLast?_eq_some h2
  have hmem : ∀ x, x ∈ add self other ↔ (x ∈ self ∧ x ∉ other) ∨ (x ∉ self ∧ x ∈ other) := by
    intro x
    constructor
    · exact add_mem_ascending self other hs ho x
    · rintro (⟨a, b⟩ | ⟨a, b⟩)
      · exact add_complete self other hs ho x
          (Or.inl ⟨a, b, L, m2, le_of_getLast? hs h1 x a⟩)
      · exact add_complete self other hs ho x
          (Or.inr ⟨b, a, L, m1, le_of_getLast? ho h2 x b⟩)
  refine ⟨?_, add_ascending self other hs ho, hmem, add_nil_right⟩
  apply eq_of_ascending_of_mem_iff (add_ascending self other hs ho)
    (symmetric_difference_ascending self other hs ho)
  intro x
  rw [hmem, mem_symmetric_difference]

theorem add_same_last_witness :
    ([0, 1, 3] : List Nat).Pairwise (· < ·) ∧ ([2, 3] : List Nat).Pairwise (· < ·) ∧
    ([0, 1, 3] : List Nat).getLast? = some 3 ∧ ([2, 3] : List Nat).getLast? = some 3 ∧
    (add [0, 1, 3] [2, 3] = symmetric_difference [0, 1, 3] [2, 3] ∧
    (add [0, 1, 3] [2, 3]).Pairwise (· < ·) ∧
    (∀ x, x ∈ add [0, 1, 3] [2, 3] ↔
      (x ∈ [0, 1, 3] ∧ x ∉ [2, 3]) ∨ (x ∉ [0, 1, 3] ∧ x ∈ [2, 3])) ∧
    ∀ anything : List Nat, add anything [] = []) :=
  ⟨by decide, by decide, rfl, rfl,
    add_same_last [0, 1, 3] [2, 3] (by decide) (by decide) 3 rfl rfl⟩

/-- C13, evaluated: `add` is not the symmetric difference on all pairs of
strictly ascending sequences.  In the run of `reduction` on
`boundary_four_edges` it is called with `self = [0, 2]` and the empty column
6 as `other`, and leaves `[]` where the symmetric difference is `[0, 2]`; on
`[1, 2, 5]` and `[1]` it leaves `[]` where the symmetric difference is
`[2, 5]`.  The merge loop stops when either sequence is exhausted and the
rest of the other one is dropped. -/
theorem add_drops_tail :
    add [0, 2] [] = [] ∧ symmetric_difference [0, 2] [] = [0, 2] ∧
    add [1, 2, 5] [1] = [] ∧ symmetric_difference [1, 2, 5] [1] = [2, 5] ∧
    add [1] [1, 2, 5] = [] ∧ symmetric_difference [1] [1, 2, 5] = [2, 5] := by
  decide

/-! ## The registration of emptied columns and its consequences -/

theorem make_matrix_four_edges :
    make_matrix (sort filtration_four_edges) = boundary_four_edges := by
  decide

/-- C14, evaluated: in the sweep of `reduction` on `boundary_four_edges`, the
boundary matrix of the valid filtration `filtration_four_edges`, the map
`inverse_low` holds the entry 2 → 6 after column 6 has been processed, and
column 6 is empty: the column reduced to empty has been registered. -/
theorem reduction_registers_empty_column :
    ascending boundary_four_edges ∧
    ∀ fuel, ∃ m2 inverse_low,
      reduction_loop (fuel + 3) boundary_four_edges 7 = some (m2, inverse_low) ∧
      inverse_low 2 = some 6 ∧ m2.getD 6 [] = [] :=
  ⟨by decide, fun _ => ⟨_, _, rfl, rfl, rfl⟩⟩

theorem zero_mem_foldl_symmetric_difference (M : matrix) (n : Nat)
    (h : ∀ j : Fin n, 0 ∉ M.getD j.val []) :
    ∀ (S : List (Fin n)) (acc : List Nat), 0 ∈ acc →
      0 ∈ S.foldl (fun acc j => symmetric_difference acc (M.getD j.val [])) acc := by
  intro S
  induction S with
  | nil => intro acc hacc; exact hacc
  | cons j S ih =>
    intro acc hacc
    rw [List.foldl_cons]
    apply ih
    rw [mem_symmetric_difference]
    exact Or.inl ⟨hacc, h j⟩

/-- C16, evaluated: on `boundary_four_edges` the function `reduction` leaves
column 7 empty, and the empty column is not the mod-2 sum of column 7 of the
input, `[0, 2]`, and of columns of smaller index, in whatever selection `S`:
row 0 occurs in no earlier column, so it stays in every such sum. -/
theorem reduction_not_mod2_sum :
    ∀ fuel, ∃ r, reduction (fuel + 3) boundary_four_edges = some r ∧
      r.getD 7 [] = [] ∧
      ∀ S : List (Fin 7),
        S.foldl (fun acc j => symmetric_difference acc (boundary_four_edges.getD j.val []))
          (boundary_four_edges.getD 7 []) ≠ r.getD 7 [] := by
  intro fuel
  refine ⟨[[], [], [], [], [2, 3], [1, 2], [], []], rfl, rfl, ?_⟩
  intro S hS
  have h0 := zero_mem_foldl_symmetric_difference boundary_four_edges 7 (by decide) S
    (boundary_four_edges.getD 7 []) (by decide)
  rw [hS] at h0
  simp at h0

/-- C17, evaluated: `filtration_triangle_late` is a valid filtration, and in
`reduction (make_matrix F)` column 9 (the triangle) is non-empty with maximal
row index 8 while column 8 (the edge {0,1}) is non-empty as well.  The
pipeline emits three intervals with a finite end although four reduced
columns are non-empty: the death at column 9 is written to `end[8]`, for
which no interval is emitted. -/
theorem reduction_death_without_birth :
    valid_filtration filtration_triangle_late ∧
    ∀ fuel,
      reduction (fuel + 3) (make_matrix filtration_triangle_late) =
        some [[], [], [], [], [2, 3], [1, 2], [], [], [0, 1], [5, 7, 8]] ∧
      reference_reduction (fuel + 3) (make_matrix filtration_triangle_late) =
        some [[], [], [], [], [2, 3], [1, 2], [], [0, 1], [], [5, 7, 8]] ∧
      compute_intervals (fuel + 3) filtration_triangle_late =
        some [{ start := 0, end_ := 1, dim := 0 }, { start := 0, end_ := 2, dim := 0 },
          { start := 0, end_ := 5, dim := 0 }, { start := 0, end_ := FLT_MAX, dim := 0 },
          { start := 3, end_ := FLT_MAX, dim := 1 }, { start := 4, end_ := FLT_MAX, dim := 1 }] := by
  refine ⟨by decide, fun fuel => ⟨?_, ?_, ?_⟩⟩
  · rfl
  · rfl
  · rfl

/-! ## Termination of the inner loop -/

/-- The function `reduce_column` walks through the states described by
`inner_loop`: it returns either at the `break`, in a state of the loop whose
low is not owned, or after a call of `add` that emptied the column. -/
theorem reduce_column_inner_loop (inverse_low : Nat → Option Nat) (i : Nat) (m0 : matrix) :
    ∀ (fuel : Nat) (m m2 : matrix) (low : Nat), i < m.length → inner_loop inverse_low i m0 m →
      reduce_column inverse_low i fuel m = some (m2, low) →
      (inner_loop inverse_low i m0 m2 ∧ (m2.getD i []).getLast? = some low ∧
        inverse_low low = none) ∨
      (∃ m3 p, inner_loop inverse_low i m0 m3 ∧ (m3.getD i []).getLast? = some low ∧
        inverse_low low = some p ∧ add (m3.getD i []) (m3.getD p []) = [] ∧
        m2 = m3.set i []) := by
  intro fuel
  induction fuel with
  | zero => intro m m2 low _ _ h; simp [reduce_column] at h
  | succ fuel ih =>
    intro m m2 low hi hloop h
    cases hL : (m.getD i []).getLast? with
    | none =>
      simp only [reduce_column, hL] at h
      exact absurd h (by simp)
    | some L =>
      cases hp : inverse_low L with
      | none =>
        simp only [reduce_column, hL, hp, Option.some.injEq, Prod.mk.injEq] at h
        obtain ⟨rfl, rfl⟩ := h
        exact Or.inl ⟨hloop, hL, hp⟩
      | some p =>
        have hm1i : (m.set i (add (m.getD i []) (m.getD p []))).getD i [] =
            add (m.getD i []) (m.getD p []) := getD_set_self _ _ _ hi
        by_cases hemp : ((m.set i (add (m.getD i []) (m.getD p []))).getD i []).length > 0
        · simp only [reduce_column, hL, hp, if_pos hemp] at h
          have hne : add (m.getD i []) (m.getD p []) ≠ [] := by
            rw [← hm1i]
            exact List.ne_nil_of_length_pos hemp
          exact ih _ m2 low (by rw [List.length_set]; exact hi)
            (inner_loop.addition m L p hloop hL hp hne) h
        · simp only [reduce_column, hL, hp, if_neg hemp, Option.some.injEq,
            Prod.mk.injEq] at h
          obtain ⟨rfl, rfl⟩ := h
          have h0 : add (m.getD i []) (m.getD p []) = [] := by
            rw [← hm1i]
            apply List.eq_nil_of_length_eq_zero
            omega
          exact Or.inr ⟨m, p, hloop, hL, hp, h0, by rw [h0]⟩

theorem inner_loop_inv {inverse_low : Nat → Option Nat} {k : Nat} {m2 m3 : matrix}
    (ha : ascending m2) (h : inner_loop inverse_low k m2 m3) :
    ascending m3 ∧ ∀ j, j ≠ k → m3.getD j [] = m2.getD j [] := by
  induction h with
  | entry => exact ⟨ha, fun _ _ => rfl⟩
  | addition m3 L p _ _ _ _ ih =>
    obtain ⟨a1, a2⟩ := ih
    refine ⟨ascending_set a1 k (add_ascending _ _ (ascending_getD a1 k) (ascending_getD a1 p)), ?_⟩
    intro j hj
    rw [getD_set_ne _ _ _ _ (Ne.symm hj)]
    exact a2 j hj

/-- C15: on a matrix with strictly ascending columns `reduction` terminates,
and every column addition performed by the inner loop, in whatever state of
the sweep and of the loop, leaves the column either empty or with a last
entry strictly smaller than before the addition. -/
theorem reduction_terminates (m : matrix) (h : ascending m) :
    (∃ fuel r, reduction fuel m = some r) ∧
    ∀ fuel k m2 inverse_low, k < m.length →
      reduction_loop fuel m k = some (m2, inverse_low) →
      ∀ m3, inner_loop inverse_low k m2 m3 →
        ∀ L p, (m3.getD k []).getLast? = some L → inverse_low L = some p →
          add (m3.getD k []) (m3.getD p []) = [] ∨
          ∃ L2, (add (m3.getD k []) (m3.getD p [])).getLast? = some L2 ∧ L2 < L := by
  refine ⟨?_, ?_⟩
  · obtain ⟨r, hr⟩ := reduction_returns m h (enough_fuel m) (lt_enough_fuel m)
    exact ⟨_, r, hr⟩
  · intro fuel k m2 inverse_low hk hst m3 hloop L p hL hp
    obtain ⟨_, q2, _, q4, _⟩ := (reduction_loop_spec fuel m h k (by omega)).1 m2 inverse_low hst
    obtain ⟨a1, a2⟩ := inner_loop_inv q2 hloop
    obtain ⟨hpk, hpcol⟩ := q4 L p hp
    rw [← a2 p (by omega)] at hpcol
    rcases hpcol with h0 | h0
    · left
      rw [h0, add_nil_right]
    · have hlt := add_lt_low (ascending_getD a1 k) (ascending_getD a1 p) hL h0
      cases hlast : (add (m3.getD k []) (m3.getD p [])).getLast? with
      | none => exact Or.inl (List.getLast?_eq_none_iff.1 hlast)
      | some L2 =>
        exact Or.inr ⟨L2, rfl, hlt L2 (List.mem_of_getLast?_eq_some hlast)⟩

theorem reduction_terminates_witness :
    ascending boundary_four_edges ∧
    ((∃ fuel r, reduction fuel boundary_four_edges = some r) ∧
    ∀ fuel k m2 inverse_low, k < boundary_four_edges.length →
      reduction_loop fuel boundary_four_edges k = some (m2, inverse_low) →
      ∀ m3, inner_loop inverse_low k m2 m3 →
        ∀ L p, (m3.getD k []).getLast? = some L → inverse_low L = some p →
          add (m3.getD k []) (m3.getD p []) = [] ∨
          ∃ L2, (add (m3.getD k []) (m3.getD p [])).getLast? = some L2 ∧ L2 < L) :=
  ⟨by decide, reduction_terminates boundary_four_edges (by decide)⟩

/-! ## The simplex comparison as a strict total order -/

theorem lexicographical_compare_iff : ∀ a b : List Int,
    lexicographical_compare a b = true ↔ List.Lex (· < ·) a b := by
  intro a
  induction a with
  | nil =>
    intro b
    cases b with
    | nil =>
      constructor
      · intro h; simp [lexicographical_compare] at h
      · intro h; cases h
    | cons y ys =>
      constructor
      · intro _; exact List.Lex.nil
      · intro _; rfl
  | cons x xs ih =>
    intro b
    cases b with
    | nil =>
      constructor
      · intro h; simp [lexicographical_compare] at h
      · intro h; cases h
    | cons y ys =>
      simp only [lexicographical_compare]
      split_ifs with h1 h2
      · constructor
        · intro _; exact List.Lex.rel h1
        · intro _; rfl
      · constructor
        · intro h; simp at h
        · intro h
          cases h with
          | cons _ => omega
          | rel h3 => omega
      · have e : x = y := by omega
        subst e
        rw [ih ys, List.Lex.cons_iff]

theorem simplex_lt_iff (a b : simplex) :
    simplex.lt a b = true ↔
      a.val < b.val ∨ (a.val = b.val ∧ (a.dim < b.dim ∨
        (a.dim = b.dim ∧ List.Lex (· < ·) a.vert.elems b.vert.elems))) := by
  rw [← lexicographical_compare_iff]
  unfold simplex.lt
  rcases lt_trichotomy a.val b.val with h1 | h1 | h1
  · rw [if_pos h1]
    exact ⟨fun _ => Or.inl h1, fun _ => rfl⟩
  · rw [if_neg (by rw [h1]; exact lt_irrefl _), if_pos h1]
    rcases lt_trichotomy a.dim b.dim with h2 | h2 | h2
    · rw [if_pos h2]
      exact ⟨fun _ => Or.inr ⟨h1, Or.inl h2⟩, fun _ => rfl⟩
    · rw [if_neg (by omega), if_pos h2]
      constructor
      · intro h
        exact Or.inr ⟨h1, Or.inr ⟨h2, h⟩⟩
      · rintro (h | ⟨_, h | ⟨_, h⟩⟩)
        · exact absurd h (by rw [h1]; exact lt_irrefl _)
        · omega
        · exact h
    · rw [if_neg (by omega), if_neg (by omega)]
      constructor
      · intro h; simp at h
      · rintro (h | ⟨_, h | ⟨h, _⟩⟩)
        · exact absurd h (by rw [h1]; exact lt_irrefl _)
        · omega
        · omega
  · rw [if_neg (not_lt.2 (le_of_lt h1)), if_neg (ne_of_gt h1)]
    constructor
    · intro h; simp at h
    · rintro (h | ⟨h, _⟩)
      · exact absurd h (not_lt.2 (le_of_lt h1))
      · exact absurd h (ne_of_gt h1)

theorem simplex_lt_irrefl (a : simplex) : simplex.lt a a = false := by
  rcases simplex_lt_total a a with h | h <;> exact h

theorem simplex_lt_transitive (a b c : simplex) (h1 : simplex.lt a b = true)
    (h2 : simplex.lt b c = true) : simplex.lt a c = true := by
  by_contra h
  simp only [Bool.not_eq_true] at h
  have hba : simplex.lt b a = false := by
    rcases simplex_lt_total a b with h3 | h3
    · exact h3
    · rw [h1] at h3
      simp at h3
  have := simplex_lt_trans c a b h hba
  rw [h2] at this
  simp at this

theorem simplex_lt_connected (a b : simplex) (h : a ≠ b) :
    simplex.lt a b = true ∨ simplex.lt b a = true := by
  by_contra h0
  simp only [not_or, Bool.not_eq_true] at h0
  exact h (simplex_lt_antisymm a b h0.2 h0.1)

/-- C18: `simplex::operator<` holds exactly when the triple (value,
dimension, ascending vertex list) of the left simplex is lexicographically
smaller than that of the right one; it is irreflexive and transitive, and two
simplices that differ in value, dimension or vertex set are ordered one way
or the other. -/
theorem simplex_lt_strict_total_order :
    (∀ a b : simplex, simplex.lt a b = true ↔
      a.val < b.val ∨ (a.val = b.val ∧ (a.dim < b.dim ∨
        (a.dim = b.dim ∧ List.Lex (· < ·) a.vert.elems b.vert.elems)))) ∧
    (∀ a : simplex, simplex.lt a a = false) ∧
    (∀ a b c : simplex, simplex.lt a b = true → simplex.lt b c = true →
      simplex.lt a c = true) ∧
    (∀ a b : simplex, a.val ≠ b.val ∨ a.dim ≠ b.dim ∨ a.vert ≠ b.vert →
      simplex.lt a b = true ∨ simplex.lt b a = true) := by
  refine ⟨simplex_lt_iff, simplex_lt_irrefl, simplex_lt_transitive, ?_⟩
  intro a b h
  apply simplex_lt_connected
  intro e
  subst e
  rcases h with h | h | h <;> exact h rfl

theorem simplex_lt_strict_total_order_witness :
    (simplex.lt ⟨0, 0, ⟨[1], by decide⟩⟩ ⟨1, 0, ⟨[0, 1], by decide⟩⟩ = true ∧
      simplex.lt ⟨1, 0, ⟨[0, 1], by decide⟩⟩ ⟨1, 0, ⟨[0, 2], by decide⟩⟩ = true ∧
      simplex.lt ⟨0, 0, ⟨[1], by decide⟩⟩ ⟨1, 0, ⟨[0, 2], by decide⟩⟩ = true) ∧
    ((⟨[0, 1], by decide⟩ : vertices) ≠ ⟨[0, 2], by decide⟩ ∧
      (simplex.lt ⟨1, 0, ⟨[0, 1], by decide⟩⟩ ⟨1, 0, ⟨[0, 2], by decide⟩⟩ = true ∨
        simplex.lt ⟨1, 0, ⟨[0, 2], by decide⟩⟩ ⟨1, 0, ⟨[0, 1], by decide⟩⟩ = true)) :=
  ⟨⟨by decide, by decide,
      simplex_lt_strict_total_order.2.2.1 ⟨0, 0, ⟨[1], by decide⟩⟩ ⟨1, 0, ⟨[0, 1], by decide⟩⟩
        ⟨1, 0, ⟨[0, 2], by decide⟩⟩ (by decide) (by decide)⟩,
    ⟨by decide,
      simplex_lt_strict_total_order.2.2.2 ⟨1, 0, ⟨[0, 1], by decide⟩⟩
        ⟨1, 0, ⟨[0, 2], by decide⟩⟩ (Or.inr (Or.inr (by decide)))⟩⟩

/-! ## Determinism and shape -/

theorem reduction_make_matrix (F : List simplex) :
    (∃ fuel r, reduction fuel (make_matrix F) = some r) ∧
    ∀ fuel r, reduction fuel (make_matrix F) = some r →
      r.length = F.length ∧ ascending r ∧ upper_triangular r ∧
      ∃ res, get_intervals r F = some res := by
  have hasc := make_matrix_ascending F
  have hup := make_matrix_upper F
  refine ⟨?_, ?_⟩
  · obtain ⟨r, hr⟩ := reduction_returns _ hasc (enough_fuel _) (lt_enough_fuel _)
    exact ⟨_, r, hr⟩
  · intro fuel r hr
    obtain ⟨s1, s2, s3⟩ := reduction_shape _ hasc hup fuel r hr
    have hlen : F.length = r.length := by
      rw [s1, make_matrix_length]
    obtain ⟨res, _, h1, _⟩ := get_intervals_births r F hlen
      (fun c x hc hx => by
        have := last_lt_of_upper r s3 c x hx
        omega)
    exact ⟨hlen.symm, s2, s3, res, h1⟩

theorem compute_intervals_returns (input : List simplex) :
    ∃ fuel res, compute_intervals fuel input = some res := by
  obtain ⟨⟨fuel, r, hr⟩, h2⟩ := reduction_make_matrix (sort input)
  obtain ⟨_, _, _, res, h3⟩ := h2 fuel r hr
  exact ⟨fuel, res, (compute_intervals_eq _ _ _).2 ⟨r, hr, h3⟩⟩

/-- C12: determinism of the ordering.  Two inputs that are permutations of
each other are sorted into the same sequence, so the pipeline returns the
same value on both for every fuel, and it does return on both. -/
theorem pipeline_deterministic (a b : List simplex) (h : a.Perm b) :
    sort a = sort b ∧
    (∀ fuel, compute_intervals fuel a = compute_intervals fuel b) ∧
    ∃ fuel res, compute_intervals fuel a = some res ∧ compute_intervals fuel b = some res := by
  have e := sort_eq_of_perm h
  have e2 : ∀ fuel, compute_intervals fuel a = compute_intervals fuel b := by
    intro fuel
    unfold compute_intervals
    simp only [e]
  refine ⟨e, e2, ?_⟩
  obtain ⟨fuel, res, h1⟩ := compute_intervals_returns a
  exact ⟨fuel, res, h1, by rw [← e2]; exact h1⟩

theorem pipeline_deterministic_witness :
    scenario_A.reverse.Perm scenario_A ∧
    (sort scenario_A.reverse = sort scenario_A ∧
    (∀ fuel, compute_intervals fuel scenario_A.reverse = compute_intervals fuel scenario_A) ∧
    ∃ fuel res, compute_intervals fuel scenario_A.reverse = some res ∧
      compute_intervals fuel scenario_A = some res) :=
  ⟨List.reverse_perm _, pipeline_deterministic scenario_A.reverse scenario_A (List.reverse_perm _)⟩

/-- C20: `reduction` preserves the shape of the boundary matrix.  For every
sequence `F`, `reduction (make_matrix F)` returns; what it returns has one
column per simplex, every column strictly ascending with all entries smaller
than its index, so the last entry of a non-empty column is a valid index of
the array `end`, and `get_intervals` returns on it. -/
theorem reduction_preserves_shape (F : List simplex) :
    (∃ fuel r, reduction fuel (make_matrix F) = some r) ∧
    ∀ fuel r, reduction fuel (make_matrix F) = some r →
      r.length = F.length ∧
      (∀ c, (r.getD c []).Pairwise (· < ·) ∧ ∀ x ∈ r.getD c [], x < c) ∧
      (∀ c x, c < F.length → (r.getD c []).getLast? = some x → x < F.length) ∧
      ∃ res, get_intervals r F = some res := by
  obtain ⟨h1, h2⟩ := reduction_make_matrix F
  refine ⟨h1, ?_⟩
  intro fuel r hr
  obtain ⟨s1, s2, s3, s4⟩ := h2 fuel r hr
  refine ⟨s1, fun c => ⟨ascending_getD s2 c, s3 c⟩, ?_, s4⟩
  intro c x hc hx
  have := last_lt_of_upper r s3 c x hx
  omega

theorem reduction_preserves_shape_witness :
    reduction 1 (make_matrix filtration_edge) = some [[], [], [0, 1]] ∧
    (([[], [], [0, 1]] : matrix).length = filtration_edge.length ∧
      (∀ c, ((([[], [], [0, 1]] : matrix)).getD c []).Pairwise (· < ·) ∧
        ∀ x ∈ ([[], [], [0, 1]] : matrix).getD c [], x < c) ∧
      (∀ c x, c < filtration_edge.length →
        (([[], [], [0, 1]] : matrix).getD c []).getLast? = some x → x < filtration_edge.length) ∧
      ∃ res, get_intervals [[], [], [0, 1]] filtration_edge = some res) :=
  ⟨by decide, (reduction_preserves_shape filtration_edge).2 1 [[], [], [0, 1]] (by decide)⟩

/-! ## The order of the returned intervals -/

theorem interval_lt_false_iff (a b : interval) : interval.lt a b = false ↔ interval_le b a := by
  unfold interval.lt interval_le
  rcases lt_trichotomy a.start b.start with h1 | h1 | h1
  · rw [if_pos h1]
    constructor
    · intro h; simp at h
    · rintro (h | ⟨h, _⟩)
      · exact absurd h (not_lt.2 (le_of_lt h1))
      · exact absurd h.symm (ne_of_lt h1)
  · rw [if_neg (by rw [h1]; exact lt_irrefl _), if_pos h1]
    rcases lt_trichotomy a.dim b.dim with h2 | h2 | h2
    · rw [if_pos h2]
      constructor
      · intro h; simp at h
      · rintro (h | ⟨_, h | ⟨h, _⟩⟩)
        · exact absurd h (by rw [h1]; exact lt_irrefl _)
        · omega
        · omega
    · rw [if_neg (by omega), if_pos h2]
      constructor
      · intro h
        simp only [decide_eq_false_iff_not, not_lt] at h
        exact Or.inr ⟨h1.symm, Or.inr ⟨h2.symm, h⟩⟩
      · rintro (h | ⟨_, h | ⟨_, h⟩⟩)
        · exact absurd h (by rw [h1]; exact lt_irrefl _)
        · omega
        · simp only [decide_eq_false_iff_not, not_lt]
          exact h
    · rw [if_neg (by omega), if_neg (by omega)]
      exact ⟨fun _ => Or.inr ⟨h1.symm, Or.inl h2⟩, fun _ => rfl⟩
  · rw [if_neg (not_lt.2 (le_of_lt h1)), if_neg (ne_of_gt h1)]
    exact ⟨fun _ => Or.inl h1, fun _ => rfl⟩

theorem interval_le_trans {a b c : interval} (h1 : interval_le a b) (h2 : interval_le b c) :
    interval_le a c := by
  unfold interval_le at h1 h2 ⊢
  rcases h1 with h1 | ⟨e1, h1⟩
  · rcases h2 with h2 | ⟨e2, _⟩
    · exact Or.inl (lt_trans h1 h2)
    · exact Or.inl (by rw [← e2]; exact h1)
  · rcases h2 with h2 | ⟨e2, h2⟩
    · exact Or.inl (by rw [e1]; exact h2)
    · refine Or.inr ⟨e1.trans e2, ?_⟩
      rcases h1 with h1 | ⟨d1, h1⟩
      · rcases h2 with h2 | ⟨d2, _⟩
        · exact Or.inl (by omega)
        · exact Or.inl (by omega)
      · rcases h2 with h2 | ⟨d2, h2⟩
        · exact Or.inl (by omega)
        · exact Or.inr ⟨by omega, le_trans h1 h2⟩

theorem interval_le_total (a b : interval) : interval_le a b ∨ interval_le b a := by
  unfold interval_le
  rcases lt_trichotomy a.start b.start with h1 | h1 | h1
  · exact Or.inl (Or.inl h1)
  · rcases lt_trichotomy a.dim b.dim with h2 | h2 | h2
    · exact Or.inl (Or.inr ⟨h1, Or.inl h2⟩)
    · rcases le_total a.end_ b.end_ with h3 | h3
      · exact Or.inl (Or.inr ⟨h1, Or.inr ⟨h2, h3⟩⟩)
      · exact Or.inr (Or.inr ⟨h1.symm, Or.inr ⟨h2.symm, h3⟩⟩)
    · exact Or.inr (Or.inr ⟨h1.symm, Or.inl h2⟩)
  · exact Or.inr (Or.inl h1)

theorem interval_le_of_lt {a b : interval} (h : interval.lt a b = true) : interval_le a b := by
  rcases interval_le_total a b with h1 | h1
  · exact h1
  · rw [← interval_lt_false_iff, h] at h1
    simp at h1

theorem multiset_insert_sorted (i : interval) : ∀ l : List interval,
    l.Pairwise interval_le → (multiset_insert i l).Pairwise interval_le := by
  intro l
  induction l with
  | nil => intro _; simp [multiset_insert]
  | cons y ys ih =>
    intro h
    have h0 := h
    rw [List.pairwise_cons] at h0
    unfold multiset_insert
    by_cases hlt : interval.lt i y = true
    · rw [if_pos hlt]
      refine List.Pairwise.cons ?_ h
      intro z hz
      rcases List.mem_cons.1 hz with e | e
      · rw [e]
        exact interval_le_of_lt hlt
      · exact interval_le_trans (interval_le_of_lt hlt) (h0.1 z e)
    · rw [if_neg hlt]
      refine List.Pairwise.cons ?_ (ih h0.2)
      intro z hz
      rcases List.mem_cons.1 ((multiset_insert_perm i ys).mem_iff.1 hz) with e | e
      · rw [e]
        simp only [Bool.not_eq_true] at hlt
        exact (interval_lt_false_iff i y).1 hlt
      · exact h0.1 z e

theorem emit_loop_sorted (b : bounds) : ∀ k,
    ((List.range k).foldl (emit_step b) []).Pairwise interval_le := by
  intro k
  induction k with
  | zero => exact List.Pairwise.nil
  | succ k ih =>
    rw [List.range_succ, List.foldl_append]
    simp only [List.foldl_cons, List.foldl_nil]
    rw [emit_step]
    split_ifs
    · exact multiset_insert_sorted _ _ ih
    · exact ih

theorem first_loop_defined (m : matrix) (F : List simplex) :
    ∀ k, k ≤ F.length → first_loop m F k ≠ none →
      ∀ c r, c < k → (m.getD c []).getLast? = some r → r < F.length := by
  intro k
  induction k with
  | zero => intro _ _ c r hc; omega
  | succ k ih =>
    intro hk hne c r hc hr
    rw [first_loop_succ] at hne
    cases hst : first_loop m F k with
    | none =>
      rw [hst] at hne
      exact absurd rfl hne
    | some b =>
      by_cases hck : c = k
      · subst hck
        have hFk : F.get? c = some (F.getD c default) := by
          rw [List.get?_eq_getElem?, List.getD_eq_getElem?_getD,
            List.getElem?_eq_getElem (by omega : c < F.length)]
          rfl
        rw [hst] at hne
        simp only [get_intervals_step, hr, hFk] at hne
        by_contra h0
        rw [if_neg h0] at hne
        exact hne rfl
      · exact ih (by omega) (by rw [hst]; simp) c r (by omega) hr

theorem get_intervals_defined (m : matrix) (F : List simplex) (res : List interval)
    (h : get_intervals m F = some res) :
    F.length = m.length ∧
    (∀ c r, c < F.length → (m.getD c []).getLast? = some r → r < F.length) ∧
    ∃ b, res = (List.range F.length).foldl (emit_step b) [] := by
  unfold get_intervals at h
  by_cases hlen : F.length = m.length
  · rw [if_pos hlen] at h
    have hfl : first_loop m F F.length ≠ none := by
      intro e
      unfold first_loop at e
      rw [e] at h
      simp at h
    refine ⟨hlen, first_loop_defined m F F.length (Nat.le_refl _) hfl, ?_⟩
    cases hb : first_loop m F F.length with
    | none => exact absurd hb hfl
    | some b =>
      unfold first_loop at hb
      rw [hb] at h
      simp only [Option.map_some', Option.some.injEq] at h
      exact ⟨b, h.symm⟩
  · rw [if_neg hlen] at h
    simp at h

/-- C11: the intervals returned by `get_intervals`, in the iteration order of
the multiset, are in non-decreasing lexicographic order of (start, dimension,
end); there is one entry per empty column whose simplex has a non-negative
dimension, equal triples included; and when no filtration value exceeds
`FLT_MAX`, no end exceeds the unbounded end `FLT_MAX`. -/
theorem get_intervals_ordered (m : matrix) (F : List simplex) (res : List interval)
    (h : get_intervals m F = some res) :
    res.Pairwise interval_le ∧
    (∃ e : Nat → ℚ, res.Perm (((List.range F.length).filter
        (fun c => decide (m.getD c [] = [] ∧ 0 ≤ (F.getD c default).dim))).map
      (fun c => ({ start := (F.getD c default).val, end_ := e c,
                   dim := (F.getD c default).dim } : interval)))) ∧
    ((∀ s ∈ F, s.val ≤ FLT_MAX) → ∀ i ∈ res, i.end_ ≤ FLT_MAX) := by
  obtain ⟨hlen, hvalid, b, hb⟩ := get_intervals_defined m F res h
  obtain ⟨res2, e, h1, _, _, h4, h5⟩ := get_intervals_births m F hlen hvalid
  rw [h] at h1
  have hres : res2 = res := (Option.some.inj h1).symm
  subst hres
  refine ⟨?_, ⟨e, h5⟩, ?_⟩
  · rw [hb]
    exact emit_loop_sorted b F.length
  · intro hmax i hi
    obtain ⟨c, _, rfl⟩ := List.mem_map.1 (h5.mem_iff.1 hi)
    simp only
    rcases h4 c with a | ⟨d, hd, _, a⟩
    · rw [a]
    · rw [a]
      exact hmax _ (getD_mem default F d hd)

theorem get_intervals_ordered_witness :
    get_intervals reduced_triangle sorted_triangle =
      some [{ start := 0, end_ := 1, dim := 0 }, { start := 0, end_ := 1, dim := 0 },
        { start := 0, end_ := FLT_MAX, dim := 0 }, { start := 1, end_ := 2, dim := 1 }] ∧
    List.Pairwise interval_le
      [{ start := 0, end_ := 1, dim := 0 }, { start := 0, end_ := 1, dim := 0 },
        { start := 0, end_ := FLT_MAX, dim := 0 }, { start := 1, end_ := 2, dim := 1 }] :=
  ⟨by decide, (get_intervals_ordered reduced_triangle sorted_triangle _ (by decide)).1⟩

end HomologyGroups
